import Mathlib

/-!
# Verification of the ab1reader core against its specification

Shallow embedding of the ab1reader repository's core JavaScript modules:

* `QualityTrimmer.findTrimPoints` / `_centeredWindowAverage`
  (src/js/editor/QualityTrimmer.js)
* `EditHistory` / `ChangeBaseCommand` (EditHistory.js, bundled in the same
  source file)
* `ChromatogramCanvas` model state: `applyTrim`, `search`, `setZoom`,
  `fitToView` (src/js/chromatogram/ChromatogramCanvas.js)
* the ABIF binary decoder: `ABIFTypes.js` readers and
  `ABIFParser.parse` / `_extractData` / `_extractTypedArray` /
  `getTagData`

JavaScript numbers are modelled by `Int` (indices, stored integer data) and
`ℚ` (quantities produced by division: window averages, zoom scales); `NaN`
and `undefined` values flowing through arithmetic are modelled by
`Option Int` with `none` for NaN/undefined.  String values are `List Char`
(or `List Nat` of char codes on the binary side).  The helpers below encode
the exact clamping rules of `String.prototype.substring`,
`Array.prototype.slice`, and JS array index assignment, which the source
relies on.
-/

namespace AB1

/-! ## JavaScript primitive semantics -/

/-- `String.prototype.substring(a, b)`: both arguments are clamped into
`[0, len]` and swapped when `a > b`. -/
def jsSubstring {α : Type} (s : List α) (a b : Int) : List α :=
  let n : Int := s.length
  let a2 := min (max a 0) n
  let b2 := min (max b 0) n
  (s.take (max a2 b2).toNat).drop (min a2 b2).toNat

/-- `Array.prototype.slice` index conversion: a negative index counts from
the end (clamped at 0), a non-negative index is clamped at the length. -/
def jsSliceIndex (len : Nat) (i : Int) : Nat :=
  if i < 0 then ((len : Int) + i).toNat else min i.toNat len

/-- `Array.prototype.slice(a, b)` (also `String.prototype.slice`). -/
def jsSlice {α : Type} (s : List α) (a b : Int) : List α :=
  (s.take (jsSliceIndex s.length b)).drop (jsSliceIndex s.length a)

/-- JS array element assignment `arr[idx] = rep` followed by `join('')`, as
performed by `ChangeBaseCommand._setBase` on `sequence.split('')`: writing
at an index beyond the end creates holes which `join('')` renders as empty
strings, so the net effect is appending `rep`.  `rep` is a JS string
(usually a single character). -/
def jsSetStr (s : List Char) (idx : Nat) (rep : List Char) : List Char :=
  if idx < s.length then s.take idx ++ rep ++ s.drop (idx + 1) else s ++ rep

/-- `s[idx]` on a JS string, as a (possibly empty) JS string. -/
def jsCharAt (s : List Char) (idx : Nat) : List Char :=
  (s.drop idx).take 1

/-- A JS number that may be NaN (`none`).  Reading `arr[i]` out of range
yields `undefined`, which behaves like NaN in all arithmetic used here. -/
abbrev JSNum := Option Int

/-- JS array read `arr[i]` with an `Int` index, where the stored elements
may themselves be NaN.  Out-of-range and negative indices give
`undefined`, collapsed to `none`. -/
def jsIndex (l : List JSNum) (i : Int) : JSNum :=
  if i < 0 then none else (l.get? i.toNat).getD none

/-- NaN-propagating subtraction. -/
def jsSub (a b : JSNum) : JSNum :=
  match a, b with
  | some x, some y => some (x - y)
  | _, _ => none

/-- `Math.max 0 (x - 10)` on a NaN-able number (`Math.max` of NaN is NaN). -/
def jsMax0Sub10 (a : JSNum) : JSNum :=
  a.map (fun v => max 0 (v - 10))

/-- `Math.min len (x + 11)` on a NaN-able number. -/
def jsMinLenAdd11 (len : Nat) (a : JSNum) : JSNum :=
  a.map (fun v => min (len : Int) (v + 11))

/-- `ToIntegerOrInfinity` as used by `slice`: NaN becomes 0. -/
def jsToInt (a : JSNum) : Int := a.getD 0

/-- `slice` with possibly-NaN bounds. -/
def jsSliceO {α : Type} (s : List α) (a b : JSNum) : List α :=
  jsSlice s (jsToInt a) (jsToInt b)

/-- `a <= b` on JS numbers: any comparison involving NaN is false. -/
def jsLe : JSNum → JSNum → Bool
  | some a, some b => a ≤ b
  | _, _ => false

/-- Non-decreasing check on a JS number array (pairwise `<=`, false as soon
as a NaN is compared). -/
def peaksNonDec : List JSNum → Bool
  | [] => true
  | [_] => true
  | a :: b :: t => jsLe a b && peaksNonDec (b :: t)

/-- JS `Set`: membership-preserving add (insertion order kept). -/
def jsSetAdd (s : List Nat) (x : Nat) : List Nat :=
  if x ∈ s then s else s ++ [x]

/-- JS `Set.delete`. -/
def jsSetDelete (s : List Nat) (x : Nat) : List Nat :=
  s.filter (fun y => y ≠ x)

/-! ## QualityTrimmer (src/js/editor/QualityTrimmer.js)

Scores are modelled as `ℚ` so that the `/10` window average is exact; the
returned indices are `Int` (the source uses `-1` sentinels and can return
`length - 1` which is `-1` on an empty array in JS, though that early
branch returns 0 instead). -/

/-- `QualityTrimmer._centeredWindowAverage`: mean of the 5 scores before
and the 5 after `centerIndex`, excluding the centre.  The scan only calls
it with `5 ≤ centerIndex ≤ length - 6`, so every access is in range; the
default 0 of `getD` is never consulted on the scan's domain. -/
def centeredWindowAverage (qs : List ℚ) (centerIndex : Nat) : ℚ :=
  (qs.getD (centerIndex - 5) 0 + qs.getD (centerIndex - 4) 0 +
   qs.getD (centerIndex - 3) 0 + qs.getD (centerIndex - 2) 0 +
   qs.getD (centerIndex - 1) 0 +
   qs.getD (centerIndex + 1) 0 + qs.getD (centerIndex + 2) 0 +
   qs.getD (centerIndex + 3) 0 + qs.getD (centerIndex + 4) 0 +
   qs.getD (centerIndex + 5) 0) / 10

/-- Mutable state of the `findTrimPoints` forward scan. -/
structure ScanState where
  trimStart : Int
  lastGoodPosition : Int
  trimEnd : Int
  foundFallOff : Bool
  deriving DecidableEq, Repr

/-- The body of the `for (let i = 5; i <= length - 6; i++)` loop of
`QualityTrimmer.findTrimPoints`; the `break` on fall-off is modelled by
returning without consuming the remaining indices. -/
def scanLoop (qs : List ℚ) (upper lower : ℚ) : List Nat → ScanState → ScanState
  | [], st => st
  | i :: rest, st =>
    let windowAvg := centeredWindowAverage qs i
    let st1 :=
      if upper ≤ windowAvg then
        { st with
          trimStart := if st.trimStart = -1 then (i : Int) else st.trimStart,
          lastGoodPosition := (i : Int) }
      else st
    if st1.trimStart ≠ -1 ∧ windowAvg < lower then
      { st1 with trimEnd := st1.lastGoodPosition, foundFallOff := true }
    else scanLoop qs upper lower rest st1

/-- The scan's index range `i = 5 .. length - 6` (empty when `length < 11`,
but that case returns before the scan). -/
def scanRange (length : Nat) : List Nat :=
  List.range' 5 (length - 10)

/-- `QualityTrimmer.findTrimPoints(qualityScores, upperThreshold,
lowerThreshold)` returning `(trimStart, trimEnd)`. -/
def findTrimPoints (qs : List ℚ) (upper lower : ℚ) : Int × Int :=
  if qs.length = 0 then (0, 0)
  else if qs.length < 11 then (0, (qs.length : Int) - 1)
  else
    let st := scanLoop qs upper lower (scanRange qs.length)
      ⟨-1, -1, (qs.length : Int) - 6, false⟩
    if st.trimStart = -1 then (5, 5)
    else if st.foundFallOff then (st.trimStart, st.trimEnd)
    else (st.trimStart,
      if st.lastGoodPosition ≠ -1 then st.lastGoodPosition
      else (qs.length : Int) - 6)

/-! ## ChromatogramCanvas model state
(src/js/chromatogram/ChromatogramCanvas.js)

The canvas object's data/view state, excluding pure rendering state (DOM
canvas, colors, fonts).  `traces` is the object keyed by nucleotide; a
channel key may be absent (`none`).  `rawTraces` is trimmed identically to
`traces` by `applyTrim` and is referenced by no claim, so it is omitted.
Zoom quantities are exact rationals standing in for JS doubles. -/

/-- The `traces` object with its four possible channel keys. -/
structure Traces where
  g : Option (List Int)
  a : Option (List Int)
  t : Option (List Int)
  c : Option (List Int)
  deriving DecidableEq, Repr

/-- Update one channel of a `traces` object by nucleotide letter; any
other letter addresses an absent key (`traces[x]` is undefined and the
guarded slice is skipped). -/
def Traces.updateChannel (ts : Traces) (ch : Char)
    (f : Option (List Int) → Option (List Int)) : Traces :=
  if ch = 'G' then { ts with g := f ts.g }
  else if ch = 'A' then { ts with a := f ts.a }
  else if ch = 'T' then { ts with t := f ts.t }
  else if ch = 'C' then { ts with c := f ts.c }
  else ts

/-- Data and view state of a `ChromatogramCanvas`. -/
structure ChromModel where
  sequence : List Char
  qualityScores : List Int
  peakLocations : List JSNum
  traces : Traces
  channelOrder : List Char
  selection : Int × Int
  searchMatches : List (Nat × Int)
  currentMatchIndex : Int
  modifications : List Nat
  scrollX : ℚ
  xScale : ℚ
  containerW : ℚ
  cfgMinXScale : ℚ
  cfgMaxXScale : ℚ
  deriving DecidableEq, Repr

/-- The §3 model invariant: the three parallel arrays have equal lengths
and `peakLocations` is non-decreasing. -/
def chromInvariant (m : ChromModel) : Bool :=
  decide (m.sequence.length = m.qualityScores.length) &&
  decide (m.sequence.length = m.peakLocations.length) &&
  peaksNonDec m.peakLocations

/-- The trace-trimming loop of `applyTrim`:
`for (const nucleotide of this.channelOrder) if (this.traces[nucleotide])
this.traces[nucleotide] = this.traces[nucleotide].slice(...)`. -/
def trimChannels (order : List Char) (ts : Traces) (a b : JSNum) : Traces :=
  order.foldl (fun acc ch =>
    acc.updateChannel ch (Option.map (fun l => jsSliceO l a b))) ts

/-- `ChromatogramCanvas.applyTrim(trimStart, trimEnd)`.  Returns the
`success` flag of the result object together with the mutated (or, on
failure, untouched) model.  The range check runs before any mutation;
`trimStart > trimEnd` is handled by swapping, not by failing. -/
def applyTrim (m : ChromModel) (trimStart trimEnd : Int) : Bool × ChromModel :=
  if m.sequence = [] ∨ trimStart < 0 ∨ (m.sequence.length : Int) ≤ trimEnd then
    (false, m)
  else
    let s := if trimEnd < trimStart then trimEnd else trimStart
    let e := if trimEnd < trimStart then trimStart else trimEnd
    let originalTraceLength : Nat :=
      match m.traces.g with
      | some gl => gl.length
      | none => 0
    let traceStart := jsIndex m.peakLocations s
    let traceEnd := jsIndex m.peakLocations e
    let sequence2 := jsSubstring m.sequence s (e + 1)
    let quality2 :=
      if m.qualityScores ≠ [] then jsSlice m.qualityScores s (e + 1)
      else m.qualityScores
    let traceSliceStart := jsMax0Sub10 traceStart
    let traceSliceEnd := jsMinLenAdd11 originalTraceLength traceEnd
    let traces2 := trimChannels m.channelOrder m.traces traceSliceStart traceSliceEnd
    let peaks2 := (jsSlice m.peakLocations s (e + 1)).map
      (fun pos => jsSub pos traceSliceStart)
    (true, { m with
      sequence := sequence2, qualityScores := quality2,
      peakLocations := peaks2, traces := traces2,
      selection := (-1, -1), searchMatches := [], currentMatchIndex := -1,
      modifications := [], scrollX := 0 })

/-- `ChangeBaseCommand._setBase(base)`: an empty string becomes the
ambiguity code `'N'`; the character at `this.index` is replaced (JS
semantics: an index past the end appends); the modification marker is set
when the written base differs from the command's `oldBase`, cleared
otherwise.  (`markModified` checks the index against the already-updated
sequence length.) -/
def setBase (m : ChromModel) (index : Nat) (oldBase base : List Char) : ChromModel :=
  let actualBase := if base = [] then ['N'] else base
  let sequence2 := jsSetStr m.sequence index actualBase
  let mods :=
    if actualBase ≠ oldBase then
      if index < sequence2.length then jsSetAdd m.modifications index
      else m.modifications
    else jsSetDelete m.modifications index
  { m with sequence := sequence2, modifications := mods }

/-! ## EditHistory and ChangeBaseCommand (EditHistory.js) -/

/-- A `ChangeBaseCommand`: base index, prior base, new base (JS strings). -/
structure Cmd where
  index : Nat
  oldBase : List Char
  newBase : List Char
  deriving DecidableEq, Repr

/-- `ChangeBaseCommand.execute()`. -/
def cmdExecute (c : Cmd) (m : ChromModel) : ChromModel :=
  setBase m c.index c.oldBase c.newBase

/-- `ChangeBaseCommand.undo()`. -/
def cmdUndo (c : Cmd) (m : ChromModel) : ChromModel :=
  setBase m c.index c.oldBase c.oldBase

/-- `EditHistory` stacks; the top of each stack is the list's last element
(JS `push`/`pop`). -/
structure EditHistory where
  undoStack : List Cmd
  redoStack : List Cmd
  maxSize : Nat
  deriving DecidableEq, Repr

/-- `EditHistory.execute(command)`: run the command, push it, clear the
redo stack, and drop the oldest entry when the stack exceeds `maxSize`. -/
def histExecute (m : ChromModel) (h : EditHistory) (c : Cmd) :
    ChromModel × EditHistory :=
  let m2 := cmdExecute c m
  let st := h.undoStack ++ [c]
  let st2 := if h.maxSize < st.length then st.drop 1 else st
  (m2, ⟨st2, [], h.maxSize⟩)

/-- `EditHistory.undo()`: pop, run the command's `undo`, move it to the
redo stack; returns whether an undo was performed. -/
def histUndo (m : ChromModel) (h : EditHistory) : Bool × ChromModel × EditHistory :=
  match h.undoStack.getLast? with
  | none => (false, m, h)
  | some c => (true, cmdUndo c m, ⟨h.undoStack.dropLast, h.redoStack ++ [c], h.maxSize⟩)

/-- One base edit issued through the UI path
(`search_bar.js onBaseChange`): the command is created with `oldBase`
read from the current sequence at `index`, then executed through the
history. -/
def makeEdit (m : ChromModel) (h : EditHistory) (p : Nat × List Char) :
    ChromModel × EditHistory :=
  histExecute m h ⟨p.1, jsCharAt m.sequence p.1, p.2⟩

/-- A sequence of base edits executed through the history. -/
def applyEdits (m : ChromModel) (h : EditHistory) :
    List (Nat × List Char) → ChromModel × EditHistory
  | [] => (m, h)
  | p :: rest =>
    let r := makeEdit m h p
    applyEdits r.1 r.2 rest

/-- `n` consecutive `undo()` calls. -/
def undoN (m : ChromModel) (h : EditHistory) : Nat → ChromModel × EditHistory
  | 0 => (m, h)
  | n + 1 =>
    let r := histUndo m h
    undoN r.2.1 r.2.2 n

/-! ## Pattern search (`ChromatogramCanvas.search`)

The source uppercases both pattern and sequence with
`String.prototype.toUpperCase` and repeatedly calls
`String.prototype.indexOf(upperPattern, startIndex)`, resuming at
`index + 1` after each match.  Case folding is abstracted as a character
map `up` applied to both sides; every theorem below is proved for an
arbitrary `up`, hence in particular for the real `toUpperCase`. -/

/-- `upperSequence.substring(i, i + pat.length) === upperPattern` — the
pattern occurring at start position `i`. -/
def occursAt (up : Char → Char) (pat s : List Char) (i : Nat) : Bool :=
  decide (((s.drop i).take pat.length).map up = pat.map up)

/-- `upperSequence.indexOf(upperPattern, k)` for a non-empty pattern:
the least start position `≥ k` at which the pattern occurs, else `none`
(`-1` in JS).  (`search` never calls `indexOf` with an empty pattern;
that case is cut off by its guard.) -/
def indexOfFrom (up : Char → Char) (pat s : List Char) (k : Nat) : Option Nat :=
  if _h : s.length < k + pat.length then none
  else if occursAt up pat s k then some k
  else indexOfFrom up pat s (k + 1)
termination_by s.length + 1 - k
decreasing_by omega

/-- Bounds delivered by a successful `indexOfFrom`. -/
theorem indexOfFrom_some {up : Char → Char} {pat s : List Char} {k i : Nat}
    (h : indexOfFrom up pat s k = some i) :
    k ≤ i ∧ i + pat.length ≤ s.length := by
  induction k using indexOfFrom.induct up pat s with
  | case1 k hk => rw [indexOfFrom, dif_pos hk] at h; exact absurd h (by simp)
  | case2 k hk hm =>
    rw [indexOfFrom, dif_neg hk, if_pos hm] at h
    cases h; omega
  | case3 k hk hm ih =>
    rw [indexOfFrom, dif_neg hk, if_neg hm] at h
    have := ih h
    omega

/-- The `while (true)` collection loop of `search`: gather match start
positions, resuming one past each found start. -/
def searchCollect (up : Char → Char) (pat s : List Char) (k : Nat) : List Nat :=
  match h : indexOfFrom up pat s k with
  | none => []
  | some i => i :: searchCollect up pat s (i + 1)
termination_by s.length + 1 - k
decreasing_by
  have := indexOfFrom_some h
  omega

/-- `ChromatogramCanvas.search(pattern)` restricted to its pure output:
the list of `{start, end}` matches pushed into `searchMatches` (the
method additionally stores them on the canvas, recentres on the first
match, and returns the count, i.e. the length of this list).  The guard
`if (!pattern || !this.sequence) return 0` empties the result for an
empty pattern or empty sequence. -/
def jsSearch (up : Char → Char) (pat s : List Char) : List (Nat × Int) :=
  if pat = [] ∨ s = [] then []
  else (searchCollect up pat s 0).map
    (fun i => (i, (i : Int) + pat.length - 1))

/-! ## Viewport (`setZoom`, `fitToView`) -/

/-- `_updateCanvasSize`'s `totalWidth`:
`Math.ceil(traces.G.length * xScale)` when the G channel is present, else
the container width. -/
def totalWidth (m : ChromModel) : ℚ :=
  match m.traces.g with
  | some gl => (⌈(gl.length : ℚ) * m.xScale⌉ : ℤ)
  | none => m.containerW

/-- Canvas width: `Math.max(totalWidth, containerWidth)`. -/
def canvasWidth (m : ChromModel) : ℚ :=
  max (totalWidth m) m.containerW

/-- The DOM's clamping of a `scrollLeft` assignment into
`[0, scrollWidth - clientWidth]`. -/
def clampScroll (m : ChromModel) (v : ℚ) : ℚ :=
  max 0 (min v (canvasWidth m - m.containerW))

/-- `ChromatogramCanvas.setZoom(scale)`: clamp into
`[minXScale, maxXScale]`; when the clamped scale differs from the current
one, rescale and recompute the scroll offset so the sample at the
viewport centre stays centred. -/
def setZoom (m : ChromModel) (scale : ℚ) : ChromModel :=
  let sc := max m.cfgMinXScale (min m.cfgMaxXScale scale)
  if sc = m.xScale then m
  else
    let centerX := m.scrollX + m.containerW / 2
    let centerDataX := centerX / m.xScale
    let m1 := { m with xScale := sc }
    let newCenterX := centerDataX * sc
    { m1 with scrollX := clampScroll m1 (newCenterX - m.containerW / 2) }

/-- `ChromatogramCanvas.fitToView()`: no-op without a G trace, otherwise
`setZoom(containerWidth / dataLength)`.  (Rational division stands in for
JS float division; a zero `dataLength` yields 0 here where JS yields
Infinity — both sides of that divergence clamp to a constant, and no
theorem below depends on which constant.) -/
def fitToView (m : ChromModel) : ChromModel :=
  match m.traces.g with
  | none => m
  | some gl => setZoom m (m.containerW / (gl.length : ℚ))

/-! ## ABIF binary decoding (src/js/abif/ABIFTypes.js, ABIFParser.js)

A file buffer is a `List Nat` of bytes.  `DataView` reads out of range
throw a `RangeError`; that is modelled by `Option` with `none` for the
throw.  Strings are lists of character codes.  Float/double elements are
carried as their raw big-endian bit patterns (IEEE value semantics are
not modelled); the claims below concern only exact-valued types and the
scalar/array shape of results. -/

/-- `DataView.getUint8`. -/
def getU8 (b : List Nat) (i : Nat) : Option Nat :=
  b.get? i

/-- `DataView.getUint16(_, false)` (big-endian). -/
def getU16 (b : List Nat) (i : Nat) : Option Nat := do
  let hi ← b.get? i
  let lo ← b.get? (i + 1)
  pure (hi * 256 + lo)

/-- `DataView.getUint32(_, false)` (big-endian). -/
def getU32 (b : List Nat) (i : Nat) : Option Nat := do
  let hi ← getU16 b i
  let lo ← getU16 b (i + 2)
  pure (hi * 65536 + lo)

/-- `ABIFTypes.toSignedShort`. -/
def toSignedShort (value : Nat) : Int :=
  if 32768 ≤ value then (value : Int) - 65536 else (value : Int)

/-- `ABIFTypes.toSignedLong`. -/
def toSignedLong (value : Nat) : Int :=
  if 2147483648 ≤ value then (value : Int) - 4294967296 else (value : Int)

/-- Read `count` consecutive bytes (the shared shape of `readString4`,
`_extractRawBytes` and the byte-wise string readers). -/
def readBytesN (b : List Nat) (off : Nat) : Nat → Option (List Nat)
  | 0 => some []
  | n + 1 => do
    let v ← getU8 b off
    let rest ← readBytesN b (off + 1) n
    pure (v :: rest)

/-- `ABIFTypes.readString4` (as character codes). -/
def readString4 (b : List Nat) (off : Nat) : Option (List Nat) :=
  readBytesN b off 4

/-- `ABIFTypes.readPString`: length-prefixed, reading at most
`maxLength - 1` characters. -/
def readPString (b : List Nat) (off maxLength : Nat) : Option (List Nat) :=
  if maxLength < 1 then some []
  else do
    let length ← getU8 b off
    readBytesN b (off + 1) (min length (maxLength - 1))

/-- `ABIFTypes.readCString`: up to `maxLength` bytes, stopping at NUL. -/
def readCString (b : List Nat) (off : Nat) : Nat → Option (List Nat)
  | 0 => some []
  | n + 1 => do
    let c ← getU8 b off
    if c = 0 then pure []
    else do
      let rest ← readCString b (off + 1) n
      pure (c :: rest)

/-- `ABIFTypes.readDate`: `(year, month, day)`. -/
def readDate (b : List Nat) (off : Nat) : Option (Nat × Nat × Nat) := do
  let year ← getU16 b off
  let month ← getU8 b (off + 2)
  let day ← getU8 b (off + 3)
  pure (year, month, day)

/-- `ABIFTypes.readTime`: `(hour, minute, second, hsecond)`. -/
def readTime (b : List Nat) (off : Nat) : Option (Nat × Nat × Nat × Nat) := do
  let hour ← getU8 b off
  let minute ← getU8 b (off + 1)
  let second ← getU8 b (off + 2)
  let hsecond ← getU8 b (off + 3)
  pure (hour, minute, second, hsecond)

/-- `ABIFTypes.readByteArray`. -/
def readByteArray (b : List Nat) (off : Nat) : Nat → Option (List Int)
  | 0 => some []
  | n + 1 => do
    let v ← getU8 b off
    let rest ← readByteArray b (off + 1) n
    pure ((v : Int) :: rest)

/-- `ABIFTypes.readCharArray` — "same as byte array". -/
def readCharArray (b : List Nat) (off count : Nat) : Option (List Int) :=
  readByteArray b off count

/-- `ABIFTypes.readWordArray` (unsigned 16-bit, big-endian). -/
def readWordArray (b : List Nat) (off : Nat) : Nat → Option (List Int)
  | 0 => some []
  | n + 1 => do
    let v ← getU16 b off
    let rest ← readWordArray b (off + 2) n
    pure ((v : Int) :: rest)

/-- `ABIFTypes.readShortArray` (signed conversion per element). -/
def readShortArray (b : List Nat) (off : Nat) : Nat → Option (List Int)
  | 0 => some []
  | n + 1 => do
    let unsigned ← getU16 b off
    let rest ← readShortArray b (off + 2) n
    pure (toSignedShort unsigned :: rest)

/-- `ABIFTypes.readLongArray` (signed conversion per element). -/
def readLongArray (b : List Nat) (off : Nat) : Nat → Option (List Int)
  | 0 => some []
  | n + 1 => do
    let unsigned ← getU32 b off
    let rest ← readLongArray b (off + 4) n
    pure (toSignedLong unsigned :: rest)

/-- `ABIFTypes.readFloatArray`, carried as raw 32-bit patterns. -/
def readFloatArray (b : List Nat) (off : Nat) : Nat → Option (List Int)
  | 0 => some []
  | n + 1 => do
    let bits ← getU32 b off
    let rest ← readFloatArray b (off + 4) n
    pure ((bits : Int) :: rest)

/-- `ABIFTypes.readDoubleArray`, carried as raw 64-bit patterns. -/
def readDoubleArray (b : List Nat) (off : Nat) : Nat → Option (List Int)
  | 0 => some []
  | n + 1 => do
    let hi ← getU32 b off
    let lo ← getU32 b (off + 4)
    let rest ← readDoubleArray b (off + 8) n
    pure ((hi * 4294967296 + lo : Nat) :: rest)

/-- A 28-byte ABIF directory entry. -/
structure DirEntry where
  name : List Nat
  number : Nat
  elementtype : Nat
  elementsize : Nat
  numelements : Nat
  datasize : Nat
  dataoffset : Nat
  datahandle : Nat
  deriving DecidableEq, Repr

/-- The value delivered by `ABIFParser._extractData` (and so by
`getTagData`): a bare scalar when the element count is 1, an array
otherwise, or one of the structured forms.  `raw` stands for the hex
string fallback (the bytes that get hex-printed). -/
inductive TagData where
  | scalar (v : Int)
  | array (a : List Int)
  | date (year month day : Nat)
  | time (hour minute second hsecond : Nat)
  | pstr (cs : List Nat)
  | cstr (cs : List Nat)
  | raw (bytes : List Nat)
  deriving DecidableEq, Repr

/-- Big-endian bytes of a 32-bit value (`DataView.setUint32(0, n, false)`;
the JS coercion reduces `n` mod `2^32` first, applied by the caller). -/
def u32beBytes (n : Nat) : List Nat :=
  [n / 16777216 % 256, n / 65536 % 256, n / 256 % 256, n % 256]

/-- `ABIFParser._extractTypedArray(dv, offset, count, type)`, dispatching
on the numeric element-type code instead of the type-name string, and
collapsing a one-element result to the bare value (`result[0]`; the
readers always return `count` elements, so `getD 0` is that element). -/
def extractTypedArray (dv : List Nat) (off count ty : Nat) : Option TagData := do
  let result ←
    match ty with
    | 1 => readByteArray dv off count
    | 2 => readCharArray dv off count
    | 3 => readWordArray dv off count
    | 4 => readShortArray dv off count
    | 5 => readLongArray dv off count
    | 7 => readFloatArray dv off count
    | 8 => readDoubleArray dv off count
    | _ => readByteArray dv off count
  pure (if count = 1 then TagData.scalar (result.getD 0 0) else TagData.array result)

/-- `ABIFParser._extractData(entry)`: when `datasize ≤ 4` the value lives
inline in the 4 bytes of the `dataoffset` field (re-serialized big-endian
into a fresh view), otherwise `dataoffset` is a file offset. -/
def extractData (buf : List Nat) (e : DirEntry) : Option TagData :=
  let dv := if e.datasize ≤ 4 then u32beBytes (e.dataoffset % 4294967296) else buf
  let offset := if e.datasize ≤ 4 then 0 else e.dataoffset
  match e.elementtype with
  | 1 | 2 | 3 | 4 | 5 | 7 | 8 => extractTypedArray dv offset e.numelements e.elementtype
  | 10 => (readDate dv offset).map (fun d => TagData.date d.1 d.2.1 d.2.2)
  | 11 => (readTime dv offset).map (fun t => TagData.time t.1 t.2.1 t.2.2.1 t.2.2.2)
  | 18 => (readPString dv offset e.datasize).map TagData.pstr
  | 19 => (readCString dv offset e.datasize).map TagData.cstr
  | _ => (readBytesN dv offset e.datasize).map TagData.raw

/-- The 128-byte ABIF header fields read by `_parseHeader`. -/
structure ABIFHeader where
  filetype : List Nat
  version : Nat
  name : List Nat
  number : Nat
  elementtype : Nat
  elementsize : Nat
  numelements : Nat
  datasize : Nat
  dataoffset : Nat
  datahandle : Nat
  deriving DecidableEq, Repr

/-- `ABIFParser._parseHeader`. -/
def parseHeader (buf : List Nat) : Option ABIFHeader := do
  let ft ← readString4 buf 0
  let ver ← getU16 buf 4
  let nm ← readString4 buf 6
  let no ← getU32 buf 10
  let et ← getU16 buf 14
  let es ← getU16 buf 16
  let ne ← getU32 buf 18
  let ds ← getU32 buf 22
  let doff ← getU32 buf 26
  let dh ← getU32 buf 30
  pure ⟨ft, ver, nm, no, et, es, ne, ds, doff, dh⟩

/-- `ABIFParser._parseDirectoryEntry(offset)`. -/
def parseDirectoryEntry (buf : List Nat) (off : Nat) : Option DirEntry := do
  let nm ← readString4 buf off
  let no ← getU32 buf (off + 4)
  let et ← getU16 buf (off + 8)
  let es ← getU16 buf (off + 10)
  let ne ← getU32 buf (off + 12)
  let ds ← getU32 buf (off + 16)
  let doff ← getU32 buf (off + 20)
  let dh ← getU32 buf (off + 24)
  pure ⟨nm, no, et, es, ne, ds, doff, dh⟩

/-- `ABIFParser._parseDirectory()`. -/
def parseDirectory (buf : List Nat) (h : ABIFHeader) : Option (List DirEntry) :=
  (List.range h.numelements).mapM
    (fun i => parseDirectoryEntry buf (h.dataoffset + i * h.elementsize))

/-- The kinds of exception `parse` can raise: a `DataView` `RangeError`
or the explicit magic-number mismatch (`FormatError`, carrying the bytes
found where "ABIF" was expected). -/
inductive ParseErr where
  | rangeError
  | formatError (got : List Nat)
  deriving DecidableEq, Repr

/-- The character codes of `"ABIF"`. -/
def magicABIF : List Nat := [65, 66, 73, 70]

/-- `ABIFParser.parse()`: parse the header, reject on a bad magic number
before touching the directory, then parse all directory entries.  An
`Except.error` models a thrown exception: nothing is published (the
parser's `directory` stays empty and `tags` stays `{}`). -/
def parse (buf : List Nat) : Except ParseErr (ABIFHeader × List DirEntry) :=
  match parseHeader buf with
  | none => .error .rangeError
  | some h =>
    if h.filetype ≠ magicABIF then .error (.formatError h.filetype)
    else
      match parseDirectory buf h with
      | none => .error .rangeError
      | some d => .ok (h, d)

/-- `ABIFParser.findEntry(name, number)`. -/
def findEntry (dir : List DirEntry) (nm : List Nat) (no : Nat) : Option DirEntry :=
  dir.find? (fun e => e.name = nm ∧ e.number = no)

/-- `ABIFParser.getTagData(name, number)`: `some none` is JS `null`
(no such entry), `some (some d)` is extracted data, outer `none` a thrown
`RangeError`.  The per-key `this.tags` cache memoizes this pure value and
is semantics-transparent, so it is not modelled. -/
def getTagData (buf : List Nat) (dir : List DirEntry) (nm : List Nat) (no : Nat) :
    Option (Option TagData) :=
  match findEntry dir nm no with
  | none => some none
  | some e => (extractData buf e).map some

/-! ## Synthetic directory encoder

The repository contains no encoder; spec §8 ("Round-trip: encode a
synthetic directory with known tag values of every supported type;
decoding must reproduce them exactly …") requires one for the round-trip
property, so it is modelled here from the spec. -/

/-- Big-endian bytes of a 16-bit value. -/
def u16beBytes (n : Nat) : List Nat :=
  [n / 256 % 256, n % 256]

/-- Big-endian base-256 value of a byte list. -/
def bytesToNatBE (l : List Nat) : Nat :=
  l.foldl (fun acc b => acc * 256 + b) 0

/-- Element values to encode, one constructor per supported ABIF element
type.  A float (resp. double) element is its raw 32-bit (resp. 64-bit)
big-endian IEEE-754 bit pattern — exactly the representation the decoder
(`readFloatArray`/`readDoubleArray`) carries. -/
inductive EncValue where
  | bytes (vs : List Nat)
  | chars (vs : List Nat)
  | words (vs : List Nat)
  | shorts (vs : List Int)
  | longs (vs : List Int)
  | floats (vs : List Nat)
  | doubles (vs : List Nat)
  | date (year month day : Nat)
  | time (hour minute second hsecond : Nat)
  | pstr (cs : List Nat)
  | cstr (cs : List Nat)
  deriving DecidableEq, Repr

/-- Modelled from the spec: the serialized data bytes of a tag value
(§4.1: big-endian fixed-size elements, signed 16/32-bit stored as
unsigned, float/double as their 4/8 raw big-endian bit-pattern bytes,
date as year(u16)+month(u8)+day(u8), time as four u8,
length-prefixed pascal string, null-terminated c-string). -/
def encBytes : EncValue → List Nat
  | .bytes vs => vs
  | .chars vs => vs
  | .words vs => (vs.map u16beBytes).flatten
  | .shorts vs => (vs.map (fun v => u16beBytes (v % 65536).toNat)).flatten
  | .longs vs => (vs.map (fun v => u32beBytes (v % 4294967296).toNat)).flatten
  | .floats vs => (vs.map u32beBytes).flatten
  | .doubles vs =>
    (vs.map (fun v => u32beBytes (v / 4294967296) ++ u32beBytes (v % 4294967296))).flatten
  | .date y mo d => u16beBytes y ++ [mo, d]
  | .time h mi s hs => [h, mi, s, hs]
  | .pstr cs => cs.length :: cs
  | .cstr cs => cs ++ [0]

/-- The ABIF element-type code of an encoded value. -/
def encTypeCode : EncValue → Nat
  | .bytes _ => 1
  | .chars _ => 2
  | .words _ => 3
  | .shorts _ => 4
  | .longs _ => 5
  | .floats _ => 7
  | .doubles _ => 8
  | .date _ _ _ => 10
  | .time _ _ _ _ => 11
  | .pstr _ => 18
  | .cstr _ => 19

/-- Per-element byte size (`ABIF_TYPE_SIZES`; strings use size 1). -/
def encElemSize : EncValue → Nat
  | .bytes _ => 1
  | .chars _ => 1
  | .words _ => 2
  | .shorts _ => 2
  | .longs _ => 4
  | .floats _ => 4
  | .doubles _ => 8
  | .date _ _ _ => 4
  | .time _ _ _ _ => 4
  | .pstr _ => 1
  | .cstr _ => 1

/-- Element count recorded in the synthetic entry (ignored by the decoder
for date/time/string types). -/
def encCount : EncValue → Nat
  | .bytes vs => vs.length
  | .chars vs => vs.length
  | .words vs => vs.length
  | .shorts vs => vs.length
  | .longs vs => vs.length
  | .floats vs => vs.length
  | .doubles vs => vs.length
  | .date _ _ _ => 1
  | .time _ _ _ _ => 1
  | .pstr cs => cs.length + 1
  | .cstr cs => cs.length + 1

/-- Modelled from the spec: encode a synthetic directory entry (§4.1 data
location rule: data of total size ≤ 4 is packed big-endian into the
4-byte `dataoffset` field, larger data is stored in the file buffer at
offset 0). -/
def encodeEntry (v : EncValue) : DirEntry × List Nat :=
  let data := encBytes v
  let ds := data.length
  if ds ≤ 4 then
    (⟨[84, 69, 83, 84], 1, encTypeCode v, encElemSize v, encCount v, ds,
      bytesToNatBE (data ++ List.replicate (4 - ds) 0), 0⟩, [])
  else
    (⟨[84, 69, 83, 84], 1, encTypeCode v, encElemSize v, encCount v, ds, 0, 0⟩, data)

/-- Well-formedness of values to encode: every element fits its type
(bytes in a byte, words in 16 bits, shorts/longs in signed range, a
pascal string short enough for its length byte, a c-string free of NUL). -/
def encValid : EncValue → Prop
  | .bytes vs => ∀ x ∈ vs, x < 256
  | .chars vs => ∀ x ∈ vs, x < 256
  | .words vs => ∀ x ∈ vs, x < 65536
  | .shorts vs => ∀ x ∈ vs, -32768 ≤ x ∧ x < 32768
  | .longs vs => ∀ x ∈ vs, -2147483648 ≤ x ∧ x < 2147483648
  | .floats vs => ∀ x ∈ vs, x < 4294967296
  | .doubles vs => ∀ x ∈ vs, x < 18446744073709551616
  | .date y mo d => y < 65536 ∧ mo < 256 ∧ d < 256
  | .time h mi s hs => h < 256 ∧ mi < 256 ∧ s < 256 ∧ hs < 256
  | .pstr cs => cs.length < 256 ∧ ∀ c ∈ cs, c < 256
  | .cstr cs => ∀ c ∈ cs, 0 < c ∧ c < 256

/-- One-element numeric results collapse to the bare scalar. -/
def scalarizeVals (l : List Int) : TagData :=
  if l.length = 1 then TagData.scalar (l.getD 0 0) else TagData.array l

/-- The decoded value the round-trip must reproduce. -/
def expectedTag : EncValue → TagData
  | .bytes vs => scalarizeVals (vs.map Int.ofNat)
  | .chars vs => scalarizeVals (vs.map Int.ofNat)
  | .words vs => scalarizeVals (vs.map Int.ofNat)
  | .shorts vs => scalarizeVals vs
  | .longs vs => scalarizeVals vs
  | .floats vs => scalarizeVals (vs.map Int.ofNat)
  | .doubles vs => scalarizeVals (vs.map Int.ofNat)
  | .date y mo d => TagData.date y mo d
  | .time h mi s hs => TagData.time h mi s hs
  | .pstr cs => TagData.pstr cs
  | .cstr cs => TagData.cstr cs

/-! ## Concrete sample data used by witnesses and counterexamples -/

/-- A small, fully concrete canvas state satisfying the §3 invariant. -/
def sampleModel : ChromModel where
  sequence := ['A', 'C', 'G', 'T', 'A']
  qualityScores := [10, 20, 30, 40, 50]
  peakLocations := [some 3, some 7, some 12, some 18, some 25]
  traces :=
    ⟨some (List.replicate 30 5), some (List.replicate 30 6),
     some (List.replicate 30 7), some (List.replicate 30 8)⟩
  channelOrder := ['G', 'A', 'T', 'C']
  selection := (-1, -1)
  searchMatches := []
  currentMatchIndex := -1
  modifications := []
  scrollX := 0
  xScale := 2
  containerW := 800
  cfgMinXScale := 1 / 2
  cfgMaxXScale := 10

/-! ## C9: `fitToView` is idempotent -/

/-- `setZoom` never touches the data arrays, the container geometry or the
zoom bounds. -/
theorem setZoom_preserves (m : ChromModel) (scale : ℚ) :
    (setZoom m scale).traces = m.traces ∧
    (setZoom m scale).containerW = m.containerW ∧
    (setZoom m scale).cfgMinXScale = m.cfgMinXScale ∧
    (setZoom m scale).cfgMaxXScale = m.cfgMaxXScale := by
  by_cases h : max m.cfgMinXScale (min m.cfgMaxXScale scale) = m.xScale <;>
    simp [setZoom, h]

/-- After `setZoom`, the scale is exactly the clamped requested scale. -/
theorem setZoom_xScale (m : ChromModel) (scale : ℚ) :
    (setZoom m scale).xScale = max m.cfgMinXScale (min m.cfgMaxXScale scale) := by
  by_cases h : max m.cfgMinXScale (min m.cfgMaxXScale scale) = m.xScale <;>
    simp [setZoom, h]

/-- `setZoom` is the identity when the clamped scale already equals the
current scale. -/
theorem setZoom_noop (m : ChromModel) (scale : ℚ)
    (h : max m.cfgMinXScale (min m.cfgMaxXScale scale) = m.xScale) :
    setZoom m scale = m := by
  simp [setZoom, h]

/-- Re-requesting the same raw scale immediately after `setZoom` is a
no-op: the clamped value now equals the current scale. -/
theorem setZoom_idem (m : ChromModel) (scale : ℚ) :
    setZoom (setZoom m scale) scale = setZoom m scale := by
  have hpres := setZoom_preserves m scale
  exact setZoom_noop _ _ (by rw [hpres.2.2.1, hpres.2.2.2, setZoom_xScale])

/-- C9: for every viewport state, calling `fitToView` twice in succession
with no other state change yields exactly the same state — in particular
the same `scale` (`xScale`) and scroll offset (`scrollX`) — as calling it
once. -/
theorem C9_fitToView_idempotent (m : ChromModel) :
    fitToView (fitToView m) = fitToView m := by
  cases hg : m.traces.g with
  | none => simp [fitToView, hg]
  | some gl =>
    have hpres := setZoom_preserves m (m.containerW / (gl.length : ℚ))
    simp only [fitToView, hg]
    rw [hpres.1, hg, hpres.2.1]
    exact setZoom_idem m (m.containerW / (gl.length : ℚ))

/-! ## C2: `applyTrim` failure condition and atomicity -/

/-- C2 (amended): `applyTrim(start, end)` fails exactly when the sequence
is empty, `start < 0`, or `end ≥ len` — the check the source performs
before any mutation — and on failure the model is left completely
unmodified.  An inverted in-range pair (`start > end`) is *not* rejected:
the source swaps the two indices and proceeds. -/
theorem C2_applyTrim_failure (m : ChromModel) (a b : Int) :
    ((applyTrim m a b).1 = false ↔
      (m.sequence = [] ∨ a < 0 ∨ (m.sequence.length : Int) ≤ b)) ∧
    ((applyTrim m a b).1 = false → (applyTrim m a b).2 = m) := by
  unfold applyTrim
  split
  · next h => exact ⟨by simpa using h, fun _ => rfl⟩
  · next h =>
    simp only [not_or] at h
    constructor
    · simp [h.1, h.2.1, h.2.2]
    · intro hf
      simp at hf

/-- C2 witness: a concrete rejected call (`start = -1`) leaves the sample
model untouched. -/
theorem C2_applyTrim_failure_witness :
    (applyTrim sampleModel (-1) 2).1 = false ∧
    (applyTrim sampleModel (-1) 2).2 = sampleModel := by
  refine ⟨(C2_applyTrim_failure sampleModel (-1) 2).1.mpr (by decide), ?_⟩
  exact (C2_applyTrim_failure sampleModel (-1) 2).2
    ((C2_applyTrim_failure sampleModel (-1) 2).1.mpr (by decide))

/-- C2 counterexample: the claim demands failure whenever
`start > end`, but `applyTrim(3, 1)` on a length-5 model *succeeds*
(the indices are swapped) and mutates the model.  -/
theorem C2_applyTrim_counterexample :
    (3 : Int) > 1 ∧
    (applyTrim sampleModel 3 1).1 = true ∧
    (applyTrim sampleModel 3 1).2.sequence = ['C', 'G', 'T'] := by
  decide

/-! ## C3: short inputs to `findTrimPoints` -/

/-- C3 (amended): inputs shorter than 11 scores degrade to
"keep everything": `(0, len - 1)` for 1 ≤ len ≤ 10 — but the empty array
returns `(0, 0)`, not `(0, -1)`, through its own early branch. -/
theorem C3_findTrimPoints_short (qs : List ℚ) (upper lower : ℚ)
    (h : qs.length < 11) :
    findTrimPoints qs upper lower =
      (0, if qs.length = 0 then 0 else (qs.length : Int) - 1) := by
  unfold findTrimPoints
  rcases Nat.eq_zero_or_pos qs.length with h0 | h0
  · simp [h0]
  · rw [if_neg (by omega), if_pos h, if_neg (by omega)]

/-- C3 witness: a 3-score input keeps everything, `(0, 2)`. -/
theorem C3_findTrimPoints_short_witness :
    findTrimPoints [30, 30, 30] 24 15 = (0, 2) := by
  have := C3_findTrimPoints_short [30, 30, 30] 24 15 (by decide)
  simpa using this

/-- C3 counterexample: on the empty array the claim's `trimEnd = len - 1`
would be `-1`, but the source's empty-input branch returns `trimEnd = 0`. -/
theorem C3_findTrimPoints_counterexample :
    findTrimPoints [] 24 15 = (0, 0) ∧
    (([] : List ℚ).length : Int) - 1 ≠ 0 := by
  decide

/-! ## C1: the §3 length/non-decreasing invariant -/

/-- With a non-negative, ordered index pair, `substring` and `slice`
clamp identically. -/
theorem jsSubstring_eq_jsSlice {α : Type} (l : List α) (a b : Int)
    (ha : 0 ≤ a) (hab : a ≤ b) :
    jsSubstring l a b = jsSlice l a b := by
  have h1 : (max (min (max a 0) ((l.length : Int))) (min (max b 0) ((l.length : Int)))).toNat
      = min b.toNat l.length := by omega
  have h2 : (min (min (max a 0) ((l.length : Int))) (min (max b 0) ((l.length : Int)))).toNat
      = min a.toNat l.length := by omega
  unfold jsSubstring jsSlice jsSliceIndex
  rw [if_neg (by omega), if_neg (by omega)]
  simp only []
  rw [h1, h2]

/-- The length of a slice depends only on the source length. -/
theorem jsSlice_length {α : Type} (l : List α) (a b : Int) :
    (jsSlice l a b).length =
      min (jsSliceIndex l.length b) l.length - jsSliceIndex l.length a := by
  simp [jsSlice]

/-- Lists of length at most one are trivially non-decreasing. -/
theorem peaksNonDec_le_one (l : List JSNum) (h : l.length ≤ 1) :
    peaksNonDec l = true := by
  match l with
  | [] => rfl
  | [_] => rfl
  | _ :: _ :: _ => simp at h

/-- A true JS `<=` has non-NaN operands. -/
theorem jsLe_some {a b : JSNum} (h : jsLe a b = true) :
    (∃ x, a = some x) ∧ ∃ y, b = some y := by
  cases a <;> cases b <;> simp [jsLe] at h ⊢

/-- A true JS `<=` on unwrapped operands. -/
theorem jsLe_le {x y : Int} (h : jsLe (some x) (some y) = true) : x ≤ y := by
  simpa [jsLe] using h

/-- A non-decreasing array of two or more entries contains no NaN. -/
theorem peaksNonDec_all_some :
    ∀ l : List JSNum, peaksNonDec l = true → 2 ≤ l.length →
      ∀ x ∈ l, ∃ v, x = some v := by
  intro l
  induction l with
  | nil => intro _ h; simp at h
  | cons a t ih =>
    intro h hlen x hx
    match t, h with
    | b :: t2, h =>
      have h2 : jsLe a b = true ∧ peaksNonDec (b :: t2) = true := by
        simpa [peaksNonDec, Bool.and_eq_true] using h
      rcases List.mem_cons.mp hx with rfl | hx2
      · exact (jsLe_some h2.1).1
      · cases t2 with
        | nil =>
          rcases List.mem_singleton.mp hx2 with rfl
          exact (jsLe_some h2.1).2
        | cons c t3 => exact ih h2.2 (by simp) x hx2

/-- The tail of a non-decreasing array is non-decreasing. -/
theorem peaksNonDec_tail (a : JSNum) (t : List JSNum)
    (h : peaksNonDec (a :: t) = true) : peaksNonDec t = true := by
  cases t with
  | nil => rfl
  | cons b t2 => exact (Bool.and_eq_true_iff.mp (by simpa [peaksNonDec] using h)).2

/-- `take` preserves the non-decreasing property. -/
theorem peaksNonDec_take :
    ∀ (l : List JSNum) (k : Nat), peaksNonDec l = true →
      peaksNonDec (l.take k) = true := by
  intro l
  induction l with
  | nil => intro k _; simp [peaksNonDec]
  | cons a t ih =>
    intro k h
    cases k with
    | zero => rfl
    | succ k2 =>
      rw [List.take_succ_cons]
      cases t with
      | nil => simp [peaksNonDec]
      | cons b t2 =>
        have h2 : jsLe a b = true ∧ peaksNonDec (b :: t2) = true := by
          simpa [peaksNonDec, Bool.and_eq_true] using h
        cases k2 with
        | zero => simp [peaksNonDec]
        | succ k3 =>
          have htail := ih (k3 + 1) h2.2
          rw [List.take_succ_cons] at htail ⊢
          simpa [peaksNonDec, Bool.and_eq_true] using ⟨h2.1, htail⟩

/-- `drop` preserves the non-decreasing property. -/
theorem peaksNonDec_drop :
    ∀ (l : List JSNum) (d : Nat), peaksNonDec l = true →
      peaksNonDec (l.drop d) = true := by
  intro l
  induction l with
  | nil => intro d _; simp [peaksNonDec]
  | cons a t ih =>
    intro d h
    cases d with
    | zero => exact h
    | succ d2 => exact ih d2 (peaksNonDec_tail a t h)

/-- Subtracting the same (non-NaN) shift from every entry preserves the
non-decreasing property. -/
theorem peaksNonDec_map_sub :
    ∀ (l : List JSNum) (t : Int), peaksNonDec l = true →
      peaksNonDec (l.map (fun p => jsSub p (some t))) = true := by
  intro l
  induction l with
  | nil => intro t _; rfl
  | cons a tl ih =>
    intro t h
    cases tl with
    | nil => rfl
    | cons b tl2 =>
      have h2 : jsLe a b = true ∧ peaksNonDec (b :: tl2) = true := by
        simpa [peaksNonDec, Bool.and_eq_true] using h
      obtain ⟨⟨va, rfl⟩, ⟨vb, rfl⟩⟩ := jsLe_some h2.1
      have hrec := ih t h2.2
      simp only [List.map_cons] at hrec ⊢
      refine (Bool.and_eq_true_iff.mpr ⟨?_, hrec⟩ : _)
      simpa [jsSub, jsLe] using jsLe_le h2.1

/-- `setBase` with an in-range index and a one-character (or empty,
converted to `'N'`) base preserves the §3 invariant: the sequence keeps
its length and the other arrays are untouched. -/
theorem setBase_preserves_invariant (m : ChromModel) (index : Nat)
    (oldB base : List Char) (hinv : chromInvariant m = true)
    (hidx : index < m.sequence.length) (hbase : base.length ≤ 1) :
    chromInvariant (setBase m index oldB base) = true := by
  have hact : (if base = [] then ['N'] else base).length = 1 := by
    match base, hbase with
    | [], _ => rfl
    | [c], _ => rfl
  have hseq : (jsSetStr m.sequence index (if base = [] then ['N'] else base)).length
      = m.sequence.length := by
    unfold jsSetStr
    rw [if_pos hidx]
    simp [hact]
    omega
  simp only [chromInvariant, Bool.and_eq_true, decide_eq_true_eq] at hinv ⊢
  exact ⟨⟨by simpa [setBase, hseq] using hinv.1.1,
    by simpa [setBase, hseq] using hinv.1.2⟩, by simpa [setBase] using hinv.2⟩

/-- A successful `applyTrim` with non-negative arguments — the only calls
the program issues (its arguments come from `findTrimPoints`) — slices
the three parallel arrays over the same index range and re-bases the
peaks by a constant shift, so the §3 invariant is preserved. -/
theorem applyTrim_preserves_invariant (m : ChromModel) (a b : Int)
    (hinv : chromInvariant m = true) (ha : 0 ≤ a) (hb : 0 ≤ b) :
    chromInvariant (applyTrim m a b).2 = true := by
  unfold applyTrim
  split
  · exact hinv
  · next hcond =>
    simp only [not_or, not_lt, not_le] at hcond
    obtain ⟨hne, -, hblen⟩ := hcond
    simp only [chromInvariant, Bool.and_eq_true, decide_eq_true_eq] at hinv
    obtain ⟨⟨hq, hp⟩, hnd⟩ := hinv
    set s : Int := if b < a then b else a with hs
    set e : Int := if b < a then a else b with he
    have hs0 : 0 ≤ s := by rw [hs]; split <;> omega
    have hse : s ≤ e + 1 := by rw [hs, he]; split <;> omega
    have hsb : s ≤ b := by rw [hs]; split <;> omega
    have hslen : s < (m.sequence.length : Int) := lt_of_le_of_lt hsb hblen
    have hsubs : jsSubstring m.sequence s (e + 1) = jsSlice m.sequence s (e + 1) :=
      jsSubstring_eq_jsSlice _ _ _ hs0 hse
    have hqne : m.qualityScores ≠ [] := by
      intro hqe
      rw [hqe] at hq
      simp only [List.length_nil, List.length_eq_zero] at hq
      exact hne hq
    have hlen12 : (jsSlice m.sequence s (e + 1)).length
        = (jsSlice m.qualityScores s (e + 1)).length := by
      rw [jsSlice_length, jsSlice_length, hq]
    have hlen13 : (jsSlice m.sequence s (e + 1)).length
        = (jsSlice m.peakLocations s (e + 1)).length := by
      rw [jsSlice_length, jsSlice_length, hp]
    simp only [chromInvariant, Bool.and_eq_true, decide_eq_true_eq]
    refine ⟨⟨?_, ?_⟩, ?_⟩
    · simpa [hsubs, if_pos hqne] using hlen12
    · simpa [hsubs] using hlen13
    · -- non-decreasing peaks after slicing and re-basing
      have hslice : peaksNonDec (jsSlice m.peakLocations s (e + 1)) = true := by
        unfold jsSlice
        exact peaksNonDec_drop _ _ (peaksNonDec_take _ _ hnd)
      rcases le_or_lt (jsSlice m.peakLocations s (e + 1)).length 1 with hle | hgt
      · exact peaksNonDec_le_one _ (by simpa using hle)
      · -- the slice has ≥ 2 entries, hence so does the source: no NaN
        have hsrc2 : 2 ≤ m.peakLocations.length := by
          have := jsSlice_length m.peakLocations s (e + 1)
          omega
        have hsome := peaksNonDec_all_some m.peakLocations hnd hsrc2
        have hsnat : s.toNat < m.peakLocations.length := by omega
        obtain ⟨v, hv⟩ := hsome (m.peakLocations.get ⟨s.toNat, hsnat⟩)
          (m.peakLocations.get_mem _ _)
        have hidx : jsIndex m.peakLocations s = some v := by
          unfold jsIndex
          rw [if_neg (by omega), List.get?_eq_get hsnat, hv]
          rfl
        have : jsMax0Sub10 (jsIndex m.peakLocations s) = some (max 0 (v - 10)) := by
          rw [hidx]; rfl
        rw [this]
        exact peaksNonDec_map_sub _ _ hslice

/-- Canvas states reachable through the program's own calls: an initial
load satisfying the invariant, base edits with a resolved (in-range)
index and a one-character or empty base (the base editor supplies
exactly these), and `applyTrim` calls with the non-negative indices
produced by `findTrimPoints`. -/
inductive Reachable : ChromModel → Prop where
  | load (m : ChromModel) : chromInvariant m = true → Reachable m
  | edit (m : ChromModel) (index : Nat) (oldB base : List Char) :
      Reachable m → index < m.sequence.length → base.length ≤ 1 →
      Reachable (setBase m index oldB base)
  | trim (m : ChromModel) (a b : Int) :
      Reachable m → 0 ≤ a → 0 ≤ b → Reachable (applyTrim m a b).2

/-- C1 (amended): every state reachable through the program's calls
satisfies `len(sequence) = len(qualityScores) = len(peakLocations)` with
non-decreasing `peakLocations`; in particular a base edit with in-range
index and a successful (or failed) `applyTrim` with non-negative
arguments preserve the invariant as a post-condition.  (Unrestricted
calls do not: see the counterexample.) -/
theorem C1_reachable_invariant (m : ChromModel) (h : Reachable m) :
    chromInvariant m = true := by
  induction h with
  | load _ hm => exact hm
  | edit m2 index oldB base _ hidx hbase ih =>
    exact setBase_preserves_invariant m2 index oldB base ih hidx hbase
  | trim m2 a b _ ha hb ih =>
    exact applyTrim_preserves_invariant m2 a b ih ha hb

/-- A 6-base model for the C1 counterexample. -/
def c1Model : ChromModel where
  sequence := ['A', 'C', 'G', 'T', 'A', 'C']
  qualityScores := [10, 20, 30, 40, 50, 60]
  peakLocations := [some 2, some 4, some 6, some 8, some 10, some 12]
  traces :=
    ⟨some (List.replicate 15 5), some (List.replicate 15 6),
     some (List.replicate 15 7), some (List.replicate 15 8)⟩
  channelOrder := ['G', 'A', 'T', 'C']
  selection := (-1, -1)
  searchMatches := []
  currentMatchIndex := -1
  modifications := []
  scrollX := 0
  xScale := 2
  containerW := 800
  cfgMinXScale := 1 / 2
  cfgMaxXScale := 10

/-- C1 counterexample: the operations do *not* preserve the invariant
unconditionally.  `applyTrim(3, -5)` on a consistent 6-base model passes
the range check (only `start < 0` and `end ≥ len` are tested), swaps to
`(-5, 3)`, reports success — and leaves `sequence` with 4 characters but
`qualityScores` with 3 entries, because `substring` clamps `-5` to 0
while `slice` treats it as `len - 5`.  Likewise a base edit at
`index = len` appends a character, breaking the length equality. -/
theorem C1_invariant_counterexample :
    chromInvariant c1Model = true ∧
    (applyTrim c1Model 3 (-5)).1 = true ∧
    chromInvariant (applyTrim c1Model 3 (-5)).2 = false ∧
    chromInvariant (setBase c1Model 6 ['A'] ['G']) = false := by
  decide

/-- C1 witness: a concrete load–edit–trim run stays within the
invariant. -/
theorem C1_reachable_invariant_witness :
    chromInvariant (applyTrim (setBase sampleModel 1 ['C'] ['G']) 1 3).2 = true :=
  C1_reachable_invariant _
    (Reachable.trim _ 1 3
      (Reachable.edit _ 1 ['C'] ['G'] (Reachable.load _ (by decide))
        (by decide) (by decide))
      (by decide) (by decide))

/-! ## C8: undo restores the sequence; a new edit clears redo -/

/-- Writing a one-character replacement at an in-range index keeps the
sequence length. -/
theorem jsSetStr_length (s : List Char) (idx : Nat) (rep : List Char)
    (hidx : idx < s.length) (hrep : rep.length = 1) :
    (jsSetStr s idx rep).length = s.length := by
  unfold jsSetStr
  rw [if_pos hidx]
  simp [hrep]
  omega

/-- The `''` → `'N'` conversion always yields a single character from a
base of length at most one. -/
theorem actualBase_length (base : List Char) (h : base.length ≤ 1) :
    (if base = [] then ['N'] else base).length = 1 := by
  match base, h with
  | [], _ => rfl
  | [c], _ => rfl

/-- `s[idx]` as a one-character string for an in-range index. -/
theorem jsCharAt_eq (s : List Char) (idx : Nat) (hidx : idx < s.length) :
    jsCharAt s idx = [s.get ⟨idx, hidx⟩] := by
  unfold jsCharAt
  rw [List.drop_eq_getElem_cons hidx]
  rfl

/-- Writing back the character that was at `idx` undoes a one-character
write there. -/
theorem jsSetStr_restore (s : List Char) (idx : Nat) (rep : List Char)
    (hidx : idx < s.length) (hrep : rep.length = 1) :
    jsSetStr (jsSetStr s idx rep) idx [s.get ⟨idx, hidx⟩] = s := by
  obtain ⟨r, rfl⟩ := List.length_eq_one.mp hrep
  have htakelen : (s.take idx).length = idx := by simp; omega
  have hinner : jsSetStr s idx [r] = s.take idx ++ [r] ++ s.drop (idx + 1) := by
    unfold jsSetStr
    rw [if_pos hidx]
  rw [hinner]
  have hlen2 : (s.take idx ++ [r] ++ s.drop (idx + 1)).length = s.length := by
    simp
    omega
  unfold jsSetStr
  rw [if_pos (by rw [hlen2]; exact hidx)]
  have ht : (s.take idx ++ [r] ++ s.drop (idx + 1)).take idx = s.take idx := by
    rw [List.append_assoc]
    exact List.take_left' htakelen
  have hd : (s.take idx ++ [r] ++ s.drop (idx + 1)).drop (idx + 1) = s.drop (idx + 1) :=
    List.drop_left' (by simp; omega)
  rw [ht, hd]
  have hcons : s.take idx ++ [s.get ⟨idx, hidx⟩] = s.take (idx + 1) := by
    rw [List.take_succ, List.getElem?_eq_getElem hidx]
    simp [List.get_eq_getElem]
  rw [hcons]
  exact List.take_append_drop _ s

/-- The sequence after `setBase` (definitional). -/
theorem setBase_seq (m : ChromModel) (idx : Nat) (oldB base : List Char) :
    (setBase m idx oldB base).sequence =
      jsSetStr m.sequence idx (if base = [] then ['N'] else base) := rfl

/-- `setBase` with an in-range index and a short base keeps the sequence
length. -/
theorem setBase_seq_length (m : ChromModel) (idx : Nat) (oldB base : List Char)
    (hidx : idx < m.sequence.length) (hbase : base.length ≤ 1) :
    (setBase m idx oldB base).sequence.length = m.sequence.length := by
  rw [setBase_seq]
  exact jsSetStr_length _ _ _ hidx (actualBase_length base hbase)

/-- One composed undo step, as `undoN` iterates it. -/
def undoStep (p : ChromModel × EditHistory) : ChromModel × EditHistory :=
  ((histUndo p.1 p.2).2.1, (histUndo p.1 p.2).2.2)

/-- `undoN` peels its last step off the outside. -/
theorem undoN_succ (m : ChromModel) (h : EditHistory) (n : Nat) :
    undoN m h (n + 1) = undoStep (undoN m h n) := by
  induction n generalizing m h with
  | zero => rfl
  | succ k ih =>
    show undoN (histUndo m h).2.1 (histUndo m h).2.2 (k + 1) = _
    rw [ih]
    rfl

/-- Undoing a `ChangeBaseCommand` created from the current base restores
the sequence, whatever model carries it at undo time. -/
theorem cmdUndo_restores (m m2 : ChromModel) (idx : Nat) (nb : List Char)
    (hidx : idx < m.sequence.length) (hnb : nb.length ≤ 1)
    (hseq : m2.sequence = (setBase m idx (jsCharAt m.sequence idx) nb).sequence) :
    (cmdUndo ⟨idx, jsCharAt m.sequence idx, nb⟩ m2).sequence = m.sequence := by
  have hch : jsCharAt m.sequence idx = [m.sequence.get ⟨idx, hidx⟩] :=
    jsCharAt_eq m.sequence idx hidx
  show (setBase m2 idx (jsCharAt m.sequence idx) (jsCharAt m.sequence idx)).sequence
      = m.sequence
  rw [setBase_seq, hseq, setBase_seq, hch]
  simp only [List.cons_ne_nil, if_neg, ite_false]
  exact jsSetStr_restore m.sequence idx _ hidx (actualBase_length nb hnb)

/-- Executing a list of edits through a fresh-enough history and undoing
them all restores the starting sequence and the starting undo stack. -/
theorem applyEdits_undoN :
    ∀ (edits : List (Nat × List Char)) (m : ChromModel) (h : EditHistory),
      h.undoStack.length + edits.length ≤ h.maxSize →
      (∀ p ∈ edits, p.1 < m.sequence.length ∧ p.2.length ≤ 1) →
      (undoN (applyEdits m h edits).1 (applyEdits m h edits).2 edits.length).1.sequence
          = m.sequence ∧
      (undoN (applyEdits m h edits).1 (applyEdits m h edits).2 edits.length).2.undoStack
          = h.undoStack := by
  intro edits
  induction edits with
  | nil => exact fun m h _ _ => ⟨rfl, rfl⟩
  | cons p rest ih =>
    intro m h hlen hvalid
    have hp := hvalid p (List.mem_cons_self p rest)
    have hnoshift : ¬ h.maxSize < (h.undoStack ++ [(⟨p.1, jsCharAt m.sequence p.1, p.2⟩ : Cmd)]).length := by
      simp only [List.length_append, List.length_cons, List.length_nil]
      simp only [List.length_cons] at hlen
      omega
    have happ : applyEdits m h (p :: rest) =
        applyEdits (cmdExecute ⟨p.1, jsCharAt m.sequence p.1, p.2⟩ m)
          ⟨h.undoStack ++ [⟨p.1, jsCharAt m.sequence p.1, p.2⟩], [], h.maxSize⟩ rest := by
      simp only [applyEdits, makeEdit, histExecute]
      rw [if_neg hnoshift]
    have hm1len : (cmdExecute ⟨p.1, jsCharAt m.sequence p.1, p.2⟩ m).sequence.length
        = m.sequence.length :=
      setBase_seq_length m p.1 _ p.2 hp.1 hp.2
    have hrec := ih (cmdExecute ⟨p.1, jsCharAt m.sequence p.1, p.2⟩ m)
      ⟨h.undoStack ++ [⟨p.1, jsCharAt m.sequence p.1, p.2⟩], [], h.maxSize⟩
      (by simp only [List.length_append, List.length_cons, List.length_nil]
          simp only [List.length_cons] at hlen
          omega)
      (by intro q hq
          have := hvalid q (List.mem_cons_of_mem p hq)
          rw [hm1len]
          exact this)
    rw [happ, List.length_cons, undoN_succ]
    obtain ⟨hseq2, hstack2⟩ := hrec
    unfold undoStep histUndo
    rw [hstack2, List.getLast?_concat]
    constructor
    · exact cmdUndo_restores m _ p.1 p.2 hp.1 hp.2 hseq2
    · simp [List.dropLast_concat]

/-- C8 (amended): starting from a fresh history (`undoStack = []`, as
created per loaded file), executing `N ≤ maxSize` base edits through
`EditHistory` and then calling `undo` `N` times restores the original
sequence exactly; and `EditHistory.execute` always empties the redo
stack — in particular an edit issued after any undo leaves it empty.
For `N > maxSize` the bound drops the oldest commands and full
restoration fails (see the counterexample). -/
theorem C8_undo_redo :
    (∀ (m : ChromModel) (h : EditHistory) (edits : List (Nat × List Char)),
      h.undoStack = [] → edits.length ≤ h.maxSize →
      (∀ p ∈ edits, p.1 < m.sequence.length ∧ p.2.length ≤ 1) →
      (undoN (applyEdits m h edits).1 (applyEdits m h edits).2 edits.length).1.sequence
        = m.sequence) ∧
    (∀ (m : ChromModel) (h : EditHistory) (c : Cmd),
      (histExecute m h c).2.redoStack = []) := by
  constructor
  · intro m h edits hempty hn hvalid
    exact (applyEdits_undoN edits m h (by rw [hempty]; simpa using hn) hvalid).1
  · intro m h c
    rfl

/-- C8 witness: two concrete edits on the sample model, then two undos,
give back the original sequence. -/
theorem C8_undo_redo_witness :
    (undoN (applyEdits sampleModel ⟨[], [], 100⟩ [(0, ['C']), (1, ['G'])]).1
      (applyEdits sampleModel ⟨[], [], 100⟩ [(0, ['C']), (1, ['G'])]).2 2).1.sequence
      = sampleModel.sequence :=
  C8_undo_redo.1 sampleModel ⟨[], [], 100⟩ [(0, ['C']), (1, ['G'])]
    rfl (by decide) (by decide)

/-- C8 counterexample: with `maxSize = 1` (the bound is a constructor
parameter; the default is 100), two edits followed by two undos do *not*
restore the original sequence — the first command was dropped from the
bounded stack, so the claim's unrestricted "N edits, N undos" fails. -/
theorem C8_undo_redo_counterexample :
    (undoN (applyEdits sampleModel ⟨[], [], 1⟩ [(0, ['C']), (1, ['G'])]).1
      (applyEdits sampleModel ⟨[], [], 1⟩ [(0, ['C']), (1, ['G'])]).2 2).1.sequence
      = ['C', 'C', 'G', 'T', 'A'] ∧
    sampleModel.sequence = ['A', 'C', 'G', 'T', 'A'] := by
  decide

/-! ## C5: search reports exactly the (overlapping) case-folded matches -/

/-- A non-empty pattern can only occur where it fits. -/
theorem occursAt_bounds {up : Char → Char} {pat s : List Char} {j : Nat}
    (hp : pat ≠ []) (h : occursAt up pat s j = true) :
    j + pat.length ≤ s.length := by
  unfold occursAt at h
  rw [decide_eq_true_eq] at h
  have hl := congrArg List.length h
  simp only [List.length_map, List.length_take, List.length_drop] at hl
  have hp2 : 0 < pat.length := List.length_pos.mpr hp
  omega

/-- When `indexOf` finds nothing from `k`, there is no occurrence at any
in-bounds position ≥ `k`. -/
theorem indexOfFrom_none_spec {up : Char → Char} {pat s : List Char} {k : Nat}
    (h : indexOfFrom up pat s k = none) :
    ∀ j, k ≤ j → j + pat.length ≤ s.length → occursAt up pat s j = false := by
  induction k using indexOfFrom.induct up pat s with
  | case1 k hk =>
    intro j hj hb
    omega
  | case2 k hk hm =>
    rw [indexOfFrom, dif_neg hk, if_pos hm] at h
    cases h
  | case3 k hk hm ih =>
    rw [indexOfFrom, dif_neg hk, if_neg hm] at h
    intro j hj hb
    rcases Nat.eq_or_lt_of_le hj with rfl | hlt
    · exact Bool.not_eq_true _ ▸ (Bool.eq_false_iff.mpr hm)
    · exact ih h j hlt hb

/-- What a successful `indexOf` delivers: the found position is in bounds,
matches, is ≥ the start, and is the least such position. -/
theorem indexOfFrom_min {up : Char → Char} {pat s : List Char} {k i : Nat}
    (h : indexOfFrom up pat s k = some i) :
    k ≤ i ∧ i + pat.length ≤ s.length ∧ occursAt up pat s i = true ∧
      ∀ j, k ≤ j → j < i → occursAt up pat s j = false := by
  induction k using indexOfFrom.induct up pat s with
  | case1 k hk =>
    rw [indexOfFrom, dif_pos hk] at h
    cases h
  | case2 k hk hm =>
    rw [indexOfFrom, dif_neg hk, if_pos hm] at h
    cases h
    exact ⟨le_refl _, by omega, hm, fun j hj hlt => by omega⟩
  | case3 k hk hm ih =>
    rw [indexOfFrom, dif_neg hk, if_neg hm] at h
    obtain ⟨h1, h2, h3, h4⟩ := ih h
    refine ⟨by omega, h2, h3, ?_⟩
    intro j hj hlt
    rcases Nat.eq_or_lt_of_le hj with rfl | hgt
    · exact Bool.eq_false_iff.mpr hm
    · exact h4 j hgt hlt

/-- Unfolding `searchCollect` when `indexOf` fails. -/
theorem searchCollect_eq_none {up : Char → Char} {pat s : List Char} {k : Nat}
    (h : indexOfFrom up pat s k = none) :
    searchCollect up pat s k = [] := by
  rw [searchCollect.eq_def]
  split
  · rfl
  · next i h2 => rw [h] at h2; cases h2

/-- Unfolding `searchCollect` when `indexOf` finds position `i`. -/
theorem searchCollect_eq_some {up : Char → Char} {pat s : List Char} {k i : Nat}
    (h : indexOfFrom up pat s k = some i) :
    searchCollect up pat s k = i :: searchCollect up pat s (i + 1) := by
  rw [searchCollect.eq_def]
  split
  · next h2 => rw [h] at h2; cases h2
  · next j h2 =>
    rw [h] at h2
    cases h2
    rfl

/-- Membership in the collection loop: exactly the in-bounds occurrences
at or after the start index. -/
theorem searchCollect_mem (up : Char → Char) (pat s : List Char) (k : Nat) :
    ∀ i2, i2 ∈ searchCollect up pat s k ↔
      k ≤ i2 ∧ i2 + pat.length ≤ s.length ∧ occursAt up pat s i2 = true := by
  induction k using searchCollect.induct up pat s with
  | case1 k h =>
    intro i2
    rw [searchCollect_eq_none h]
    simp only [List.not_mem_nil, false_iff, not_and]
    intro h1 h2 h3
    rw [indexOfFrom_none_spec h i2 h1 h2] at h3
    cases h3
  | case2 k i h ih =>
    intro i2
    rw [searchCollect_eq_some h]
    obtain ⟨hki, hib, hocc, hmin⟩ := indexOfFrom_min h
    simp only [List.mem_cons]
    constructor
    · rintro (rfl | h2)
      · exact ⟨hki, hib, hocc⟩
      · have h3 := (ih i2).mp h2
        exact ⟨by omega, h3.2.1, h3.2.2⟩
    · rintro ⟨hk2, hb2, ho2⟩
      rcases lt_trichotomy i2 i with hlt | rfl | hgt
      · rw [hmin i2 hk2 hlt] at ho2
        cases ho2
      · exact Or.inl rfl
      · exact Or.inr ((ih i2).mpr ⟨by omega, hb2, ho2⟩)

/-- The collection loop reports matches in strictly increasing order. -/
theorem searchCollect_sorted (up : Char → Char) (pat s : List Char) (k : Nat) :
    List.Pairwise (· < ·) (searchCollect up pat s k) := by
  induction k using searchCollect.induct up pat s with
  | case1 k h => rw [searchCollect_eq_none h]; exact List.Pairwise.nil
  | case2 k i h ih =>
    rw [searchCollect_eq_some h]
    refine List.pairwise_cons.mpr ⟨?_, ih⟩
    intro j hj
    have := (searchCollect_mem up pat s (i + 1) j).mp hj
    omega

/-- The collection loop from 0 equals the filtered position range. -/
theorem searchCollect_eq_filter (up : Char → Char) (pat s : List Char)
    (hp : pat ≠ []) :
    searchCollect up pat s 0 =
      (List.range (s.length + 1 - pat.length)).filter (occursAt up pat s) := by
  have hp2 : 0 < pat.length := List.length_pos.mpr hp
  have hs1 : List.Pairwise (· < ·) (searchCollect up pat s 0) :=
    searchCollect_sorted up pat s 0
  have hs2 : List.Pairwise (· < ·)
      ((List.range (s.length + 1 - pat.length)).filter (occursAt up pat s)) :=
    List.Pairwise.filter _ (List.pairwise_lt_range _)
  have hmem : ∀ a, a ∈ searchCollect up pat s 0 ↔
      a ∈ (List.range (s.length + 1 - pat.length)).filter (occursAt up pat s) := by
    intro a
    rw [searchCollect_mem, List.mem_filter, List.mem_range]
    constructor
    · rintro ⟨-, hb, ho⟩
      exact ⟨by omega, ho⟩
    · rintro ⟨hr, ho⟩
      exact ⟨Nat.zero_le _, occursAt_bounds hp ho, ho⟩
  exact List.eq_of_perm_of_sorted
    ((List.perm_ext_iff_of_nodup
      (hs1.imp fun h => Nat.ne_of_lt h) (hs2.imp fun h => Nat.ne_of_lt h)).mpr hmem)
    (hs1.imp fun h => Nat.le_of_lt h) (hs2.imp fun h => Nat.le_of_lt h)

/-- C5 (amended): for every *non-empty* pattern, `search` produces, in
increasing order of start position, exactly the `{start, end}` matches at
the positions `i` where the case-folded window `S[i : i + len(P)]` equals
the case-folded pattern — including overlapping ones, since each scan
resumes at `match_start + 1` — and the reported count is the length of
that list.  (An empty pattern is cut off by the guard and reports 0
matches; see the counterexample.)  `up` abstracts `toUpperCase`,
character-wise; the statement holds for every such folding. -/
theorem C5_search_matches (up : Char → Char) (pat s : List Char) (hp : pat ≠ []) :
    jsSearch up pat s =
      ((List.range (s.length + 1 - pat.length)).filter (occursAt up pat s)).map
        (fun (i : Nat) => (i, (i : Int) + pat.length - 1)) ∧
    (jsSearch up pat s).length =
      ((List.range (s.length + 1 - pat.length)).filter (occursAt up pat s)).length := by
  have hp2 : 0 < pat.length := List.length_pos.mpr hp
  by_cases hs : s = []
  · subst hs
    have h0 : 1 - pat.length = 0 := by omega
    constructor
    · unfold jsSearch
      rw [if_pos (Or.inr rfl)]
      simp [h0]
    · unfold jsSearch
      rw [if_pos (Or.inr rfl)]
      simp [h0]
  · have hmain : jsSearch up pat s =
        ((List.range (s.length + 1 - pat.length)).filter (occursAt up pat s)).map
          (fun (i : Nat) => (i, (i : Int) + pat.length - 1)) := by
      unfold jsSearch
      rw [if_neg (by simp [hp, hs]), searchCollect_eq_filter up pat s hp]
    exact ⟨hmain, by rw [hmain]; simp⟩

/-- C5 witness: searching `"AA"` (lower-case) in `"aAa"` with real
upper-casing finds the two overlapping occurrences `[0,1]` and `[1,2]`. -/
theorem C5_search_matches_witness :
    jsSearch Char.toUpper ['a', 'a'] ['a', 'A', 'a'] = [(0, 1), (1, 2)] := by
  rw [(C5_search_matches Char.toUpper ['a', 'a'] ['a', 'A', 'a'] (by decide)).1]
  decide

/-- C5 counterexample: on the empty pattern the guard reports no matches,
while the claim's "every pattern" reading counts one occurrence of the
empty string at every start position (two for a 1-character sequence). -/
theorem C5_search_matches_counterexample :
    jsSearch Char.toUpper [] ['A'] = [] ∧
    ((List.range ((['A'] : List Char).length + 1 - ([] : List Char).length)).filter
      (occursAt Char.toUpper [] ['A'])).length = 2 := by
  constructor
  · rfl
  · decide

/-! ## C7: a bad magic number fails the parse before anything is published -/

/-- In-bounds byte reads succeed. -/
theorem getU8_isSome (b : List Nat) (i : Nat) (h : i < b.length) :
    ∃ v, getU8 b i = some v := by
  unfold getU8
  exact ⟨_, List.get?_eq_get h⟩

/-- In-bounds 16-bit reads succeed. -/
theorem getU16_isSome (b : List Nat) (i : Nat) (h : i + 2 ≤ b.length) :
    ∃ v, getU16 b i = some v := by
  obtain ⟨x, hx⟩ := getU8_isSome b i (by omega)
  obtain ⟨y, hy⟩ := getU8_isSome b (i + 1) (by omega)
  unfold getU8 at hx hy
  exact ⟨x * 256 + y, by unfold getU16; rw [hx, hy]; rfl⟩

/-- In-bounds 32-bit reads succeed. -/
theorem getU32_isSome (b : List Nat) (i : Nat) (h : i + 4 ≤ b.length) :
    ∃ v, getU32 b i = some v := by
  obtain ⟨x, hx⟩ := getU16_isSome b i (by omega)
  obtain ⟨y, hy⟩ := getU16_isSome b (i + 2) (by omega)
  exact ⟨x * 65536 + y, by unfold getU32; rw [hx, hy]; rfl⟩

/-- In-bounds block reads succeed. -/
theorem readBytesN_isSome (b : List Nat) :
    ∀ (n off : Nat), off + n ≤ b.length → ∃ l, readBytesN b off n = some l := by
  intro n
  induction n with
  | zero => exact fun off _ => ⟨[], rfl⟩
  | succ k ih =>
    intro off hoff
    obtain ⟨v, hv⟩ := getU8_isSome b off (by omega)
    obtain ⟨l, hl⟩ := ih (off + 1) (by omega)
    exact ⟨v :: l, by unfold readBytesN; rw [hv, hl]; rfl⟩

/-- In-bounds 4-character reads succeed. -/
theorem readString4_isSome (b : List Nat) (off : Nat) (h : off + 4 ≤ b.length) :
    ∃ l, readString4 b off = some l :=
  readBytesN_isSome b 4 off h

/-- C7 (amended): for every buffer long enough to hold the header fields
(34 bytes) whose 4-byte magic is not `"ABIF"`, `parse` throws the
magic-mismatch `FormatError` — before the directory is read, so no
entries and no tag values are published (an `Except.error` carries
nothing).  Shorter buffers with a bad magic also publish nothing but die
earlier with a `RangeError` from the header reads (see the
counterexample). -/
theorem C7_parse_formatError (buf : List Nat) (ft : List Nat)
    (hlen : 34 ≤ buf.length) (hft : readString4 buf 0 = some ft)
    (hne : ft ≠ magicABIF) :
    parse buf = .error (.formatError ft) := by
  obtain ⟨v2, h2⟩ := getU16_isSome buf 4 (by omega)
  obtain ⟨nm, h3⟩ := readString4_isSome buf 6 (by omega)
  obtain ⟨v4, h4⟩ := getU32_isSome buf 10 (by omega)
  obtain ⟨v5, h5⟩ := getU16_isSome buf 14 (by omega)
  obtain ⟨v6, h6⟩ := getU16_isSome buf 16 (by omega)
  obtain ⟨v7, h7⟩ := getU32_isSome buf 18 (by omega)
  obtain ⟨v8, h8⟩ := getU32_isSome buf 22 (by omega)
  obtain ⟨v9, h9⟩ := getU32_isSome buf 26 (by omega)
  obtain ⟨v10, h10⟩ := getU32_isSome buf 30 (by omega)
  have hh : parseHeader buf = some ⟨ft, v2, nm, v4, v5, v6, v7, v8, v9, v10⟩ := by
    unfold parseHeader
    rw [hft, h2, h3, h4, h5, h6, h7, h8, h9, h10]
    rfl
  unfold parse
  rw [hh]
  simp [hne]

/-- C7 witness: an all-zero 34-byte buffer has magic `[0,0,0,0]` and is
rejected with that `FormatError`. -/
theorem C7_parse_formatError_witness :
    parse (List.replicate 34 0) = .error (.formatError [0, 0, 0, 0]) :=
  C7_parse_formatError (List.replicate 34 0) [0, 0, 0, 0]
    (by decide) (by decide) (by decide)

/-- C7 counterexample: a 4-byte buffer `"XXXX"` has a well-defined magic
field that differs from `"ABIF"`, yet `parse` fails with a `RangeError`
(thrown by the header's `getUint16(4)` before the magic check runs), not
with the claimed `FormatError`. -/
theorem C7_parse_formatError_counterexample :
    readString4 [88, 88, 88, 88] 0 = some [88, 88, 88, 88] ∧
    [88, 88, 88, 88] ≠ magicABIF ∧
    parse [88, 88, 88, 88] = .error .rangeError :=
  ⟨rfl, by decide, rfl⟩

/-! ## C10: one-element entries collapse to a bare scalar -/

/-- `readByteArray` returns exactly `count` values. -/
theorem readByteArray_length (b : List Nat) :
    ∀ (n off : Nat) (l : List Int), readByteArray b off n = some l → l.length = n := by
  intro n
  induction n with
  | zero =>
    intro off l h
    have h2 : (some ([] : List Int) : Option (List Int)) = some l := h
    cases h2
    rfl
  | succ k ih =>
    intro off l h
    unfold readByteArray at h
    cases hv : getU8 b off with
    | none => rw [hv] at h; cases h
    | some v =>
      rw [hv] at h
      cases hr : readByteArray b (off + 1) k with
      | none => rw [hr] at h; cases h
      | some rest =>
        rw [hr] at h
        have h2 : (some ((v : Int) :: rest) : Option (List Int)) = some l := h
        cases h2
        simp [ih (off + 1) rest hr]

/-- `readCharArray` returns exactly `count` values. -/
theorem readCharArray_length (b : List Nat) (n off : Nat) (l : List Int)
    (h : readCharArray b off n = some l) : l.length = n :=
  readByteArray_length b n off l h

/-- `readWordArray` returns exactly `count` values. -/
theorem readWordArray_length (b : List Nat) :
    ∀ (n off : Nat) (l : List Int), readWordArray b off n = some l → l.length = n := by
  intro n
  induction n with
  | zero =>
    intro off l h
    have h2 : (some ([] : List Int) : Option (List Int)) = some l := h
    cases h2
    rfl
  | succ k ih =>
    intro off l h
    unfold readWordArray at h
    cases hv : getU16 b off with
    | none => rw [hv] at h; cases h
    | some v =>
      rw [hv] at h
      cases hr : readWordArray b (off + 2) k with
      | none => rw [hr] at h; cases h
      | some rest =>
        rw [hr] at h
        have h2 : (some ((v : Int) :: rest) : Option (List Int)) = some l := h
        cases h2
        simp [ih (off + 2) rest hr]

/-- `readShortArray` returns exactly `count` values. -/
theorem readShortArray_length (b : List Nat) :
    ∀ (n off : Nat) (l : List Int), readShortArray b off n = some l → l.length = n := by
  intro n
  induction n with
  | zero =>
    intro off l h
    have h2 : (some ([] : List Int) : Option (List Int)) = some l := h
    cases h2
    rfl
  | succ k ih =>
    intro off l h
    unfold readShortArray at h
    cases hv : getU16 b off with
    | none => rw [hv] at h; cases h
    | some v =>
      rw [hv] at h
      cases hr : readShortArray b (off + 2) k with
      | none => rw [hr] at h; cases h
      | some rest =>
        rw [hr] at h
        have h2 : (some (toSignedShort v :: rest) : Option (List Int)) = some l := h
        cases h2
        simp [ih (off + 2) rest hr]

/-- `readLongArray` returns exactly `count` values. -/
theorem readLongArray_length (b : List Nat) :
    ∀ (n off : Nat) (l : List Int), readLongArray b off n = some l → l.length = n := by
  intro n
  induction n with
  | zero =>
    intro off l h
    have h2 : (some ([] : List Int) : Option (List Int)) = some l := h
    cases h2
    rfl
  | succ k ih =>
    intro off l h
    unfold readLongArray at h
    cases hv : getU32 b off with
    | none => rw [hv] at h; cases h
    | some v =>
      rw [hv] at h
      cases hr : readLongArray b (off + 4) k with
      | none => rw [hr] at h; cases h
      | some rest =>
        rw [hr] at h
        have h2 : (some (toSignedLong v :: rest) : Option (List Int)) = some l := h
        cases h2
        simp [ih (off + 4) rest hr]

/-- `readFloatArray` returns exactly `count` values. -/
theorem readFloatArray_length (b : List Nat) :
    ∀ (n off : Nat) (l : List Int), readFloatArray b off n = some l → l.length = n := by
  intro n
  induction n with
  | zero =>
    intro off l h
    have h2 : (some ([] : List Int) : Option (List Int)) = some l := h
    cases h2
    rfl
  | succ k ih =>
    intro off l h
    unfold readFloatArray at h
    cases hv : getU32 b off with
    | none => rw [hv] at h; cases h
    | some v =>
      rw [hv] at h
      cases hr : readFloatArray b (off + 4) k with
      | none => rw [hr] at h; cases h
      | some rest =>
        rw [hr] at h
        have h2 : (some ((v : Int) :: rest) : Option (List Int)) = some l := h
        cases h2
        simp [ih (off + 4) rest hr]

/-- `readDoubleArray` returns exactly `count` values. -/
theorem readDoubleArray_length (b : List Nat) :
    ∀ (n off : Nat) (l : List Int), readDoubleArray b off n = some l → l.length = n := by
  intro n
  induction n with
  | zero =>
    intro off l h
    have h2 : (some ([] : List Int) : Option (List Int)) = some l := h
    cases h2
    rfl
  | succ k ih =>
    intro off l h
    unfold readDoubleArray at h
    cases hv : getU32 b off with
    | none => rw [hv] at h; cases h
    | some v =>
      rw [hv] at h
      cases hw : getU32 b (off + 4) with
      | none => rw [hw] at h; cases h
      | some w =>
        rw [hw] at h
        cases hr : readDoubleArray b (off + 8) k with
        | none => rw [hr] at h; cases h
        | some rest =>
          rw [hr] at h
          have h2 : (some (((v * 4294967296 + w : Nat) : Int) :: rest) : Option (List Int))
              = some l := h
          cases h2
          simp [ih (off + 8) rest hr]

/-- The scalar/array shape of `_extractTypedArray`'s result, for any
element reader that returns `count` values. -/
theorem extractTypedArray_aux (reader : List Nat → Nat → Nat → Option (List Int))
    (hlen : ∀ (b : List Nat) (n off : Nat) (l : List Int),
      reader b off n = some l → l.length = n)
    (dv : List Nat) (off count : Nat) (d : TagData)
    (h : (do
      let result ← reader dv off count
      pure (if count = 1 then TagData.scalar (result.getD 0 0)
            else TagData.array result) : Option TagData) = some d) :
    (count = 1 → ∃ v, d = TagData.scalar v) ∧
    (count ≠ 1 → ∃ a, d = TagData.array a ∧ a.length = count) := by
  cases hr : reader dv off count with
  | none => rw [hr] at h; cases h
  | some result =>
    rw [hr] at h
    have hd : (some (if count = 1 then TagData.scalar (result.getD 0 0)
        else TagData.array result) : Option TagData) = some d := h
    have hd2 := Option.some_injective _ hd
    constructor
    · intro h1
      rw [if_pos h1] at hd2
      exact ⟨_, hd2.symm⟩
    · intro h1
      rw [if_neg h1] at hd2
      exact ⟨result, hd2.symm, hlen dv count off result hr⟩

/-- C10: for every directory entry of a fixed-size element type (the
seven types extracted through `_extractTypedArray`: byte, char, word,
short, long, float, double), `getTagData` returns a bare scalar — not a
one-element array — exactly when the entry's element count is 1, and an
array of `numelements` values when the count is greater than 1. -/
theorem C10_getTagData_scalar_array (buf : List Nat) (dir : List DirEntry)
    (nm : List Nat) (no : Nat) (e : DirEntry) (d : TagData)
    (hfind : findEntry dir nm no = some e)
    (hty : e.elementtype ∈ [1, 2, 3, 4, 5, 7, 8])
    (hget : getTagData buf dir nm no = some (some d)) :
    (e.numelements = 1 → ∃ v, d = TagData.scalar v) ∧
    (1 < e.numelements → ∃ a, d = TagData.array a ∧ a.length = e.numelements) := by
  unfold getTagData at hget
  rw [hfind] at hget
  have hget2 : Option.map some (extractData buf e) = some (some d) := hget
  have hex : extractData buf e = some d := by
    cases hextract : extractData buf e with
    | none => rw [hextract] at hget2; cases hget2
    | some d2 =>
      rw [hextract] at hget2
      have h3 : (some (some d2) : Option (Option TagData)) = some (some d) := hget2
      cases Option.some_injective _ (Option.some_injective _ h3)
      rfl
  have hshape : (e.numelements = 1 → ∃ v, d = TagData.scalar v) ∧
      (e.numelements ≠ 1 → ∃ a, d = TagData.array a ∧ a.length = e.numelements) := by
    unfold extractData at hex
    simp only [List.mem_cons, List.mem_singleton, List.not_mem_nil, or_false] at hty
    rcases hty with h | h | h | h | h | h | h <;> rw [h] at hex
    · exact extractTypedArray_aux readByteArray readByteArray_length _ _ _ _ hex
    · exact extractTypedArray_aux readByteArray readByteArray_length _ _ _ _ hex
    · exact extractTypedArray_aux readWordArray readWordArray_length _ _ _ _ hex
    · exact extractTypedArray_aux readShortArray readShortArray_length _ _ _ _ hex
    · exact extractTypedArray_aux readLongArray readLongArray_length _ _ _ _ hex
    · exact extractTypedArray_aux readFloatArray readFloatArray_length _ _ _ _ hex
    · exact extractTypedArray_aux readDoubleArray readDoubleArray_length _ _ _ _ hex
  exact ⟨hshape.1, fun hgt => hshape.2 (by omega)⟩

/-! ## C6: encode/decode round trip

Helper lemmas: reading past a dropped head is reading the tail
(`cons_shift`), and each array reader decodes the byte concatenation its
element encoding produced. -/

/-- Block reads ignore a prepended byte when the offset is bumped. -/
theorem readBytesN_cons_shift (x : Nat) (b : List Nat) :
    ∀ (n off : Nat), readBytesN (x :: b) (off + 1) n = readBytesN b off n := by
  intro n
  induction n with
  | zero => intro off; rfl
  | succ k ih =>
    intro off
    unfold readBytesN
    rw [show getU8 (x :: b) (off + 1) = getU8 b off from rfl, ih (off + 1)]

/-- Byte-array reads ignore a prepended byte when the offset is bumped. -/
theorem readByteArray_cons_shift (x : Nat) (b : List Nat) :
    ∀ (n off : Nat), readByteArray (x :: b) (off + 1) n = readByteArray b off n := by
  intro n
  induction n with
  | zero => intro off; rfl
  | succ k ih =>
    intro off
    unfold readByteArray
    rw [show getU8 (x :: b) (off + 1) = getU8 b off from rfl, ih (off + 1)]

/-- Word-array reads ignore a prepended byte when the offset is bumped. -/
theorem readWordArray_cons_shift (x : Nat) (b : List Nat) :
    ∀ (n off : Nat), readWordArray (x :: b) (off + 1) n = readWordArray b off n := by
  intro n
  induction n with
  | zero => intro off; rfl
  | succ k ih =>
    intro off
    unfold readWordArray
    rw [show getU16 (x :: b) (off + 1) = getU16 b off from rfl]
    have h2 : readWordArray (x :: b) (off + 1 + 2) k = readWordArray b (off + 2) k := by
      have := ih (off + 2)
      rw [show off + 1 + 2 = off + 2 + 1 from by omega]
      exact this
    rw [h2]

/-- Short-array reads ignore a prepended byte when the offset is bumped. -/
theorem readShortArray_cons_shift (x : Nat) (b : List Nat) :
    ∀ (n off : Nat), readShortArray (x :: b) (off + 1) n = readShortArray b off n := by
  intro n
  induction n with
  | zero => intro off; rfl
  | succ k ih =>
    intro off
    unfold readShortArray
    rw [show getU16 (x :: b) (off + 1) = getU16 b off from rfl]
    have h2 : readShortArray (x :: b) (off + 1 + 2) k = readShortArray b (off + 2) k := by
      have := ih (off + 2)
      rw [show off + 1 + 2 = off + 2 + 1 from by omega]
      exact this
    rw [h2]

/-- Long-array reads ignore a prepended byte when the offset is bumped. -/
theorem readLongArray_cons_shift (x : Nat) (b : List Nat) :
    ∀ (n off : Nat), readLongArray (x :: b) (off + 1) n = readLongArray b off n := by
  intro n
  induction n with
  | zero => intro off; rfl
  | succ k ih =>
    intro off
    unfold readLongArray
    rw [show getU32 (x :: b) (off + 1) = getU32 b off from rfl]
    have h2 : readLongArray (x :: b) (off + 1 + 4) k = readLongArray b (off + 4) k := by
      have := ih (off + 4)
      rw [show off + 1 + 4 = off + 4 + 1 from by omega]
      exact this
    rw [h2]

/-- C-string reads ignore a prepended byte when the offset is bumped. -/
theorem readCString_cons_shift (x : Nat) (b : List Nat) :
    ∀ (n off : Nat), readCString (x :: b) (off + 1) n = readCString b off n := by
  intro n
  induction n with
  | zero => intro off; rfl
  | succ k ih =>
    intro off
    unfold readCString
    rw [show getU8 (x :: b) (off + 1) = getU8 b off from rfl, ih (off + 1)]

/-- One unrolling of `readBytesN`. -/
theorem readBytesN_succ (b : List Nat) (off k : Nat) :
    readBytesN b off (k + 1) = (do
      let v ← getU8 b off
      let rest ← readBytesN b (off + 1) k
      pure (v :: rest)) := rfl

/-- One unrolling of `readByteArray`. -/
theorem readByteArray_succ (b : List Nat) (off k : Nat) :
    readByteArray b off (k + 1) = (do
      let v ← getU8 b off
      let rest ← readByteArray b (off + 1) k
      pure ((v : Int) :: rest)) := rfl

/-- One unrolling of `readWordArray`. -/
theorem readWordArray_succ (b : List Nat) (off k : Nat) :
    readWordArray b off (k + 1) = (do
      let v ← getU16 b off
      let rest ← readWordArray b (off + 2) k
      pure ((v : Int) :: rest)) := rfl

/-- One unrolling of `readShortArray`. -/
theorem readShortArray_succ (b : List Nat) (off k : Nat) :
    readShortArray b off (k + 1) = (do
      let unsigned ← getU16 b off
      let rest ← readShortArray b (off + 2) k
      pure (toSignedShort unsigned :: rest)) := rfl

/-- One unrolling of `readLongArray`. -/
theorem readLongArray_succ (b : List Nat) (off k : Nat) :
    readLongArray b off (k + 1) = (do
      let unsigned ← getU32 b off
      let rest ← readLongArray b (off + 4) k
      pure (toSignedLong unsigned :: rest)) := rfl

/-- A block read of a list's own length returns the list. -/
theorem readBytesN_prefix : ∀ (vs rest : List Nat),
    readBytesN (vs ++ rest) 0 vs.length = some vs := by
  intro vs
  induction vs with
  | nil => intro rest; rfl
  | cons v vs ih =>
    intro rest
    rw [List.length_cons, readBytesN_succ]
    rw [show getU8 ((v :: vs) ++ rest) 0 = some v from rfl]
    have h2 : readBytesN ((v :: vs) ++ rest) (0 + 1) vs.length
        = readBytesN (vs ++ rest) 0 vs.length :=
      readBytesN_cons_shift v (vs ++ rest) vs.length 0
    rw [h2, ih rest]
    rfl

/-- Byte elements decode to themselves. -/
theorem readByteArray_enc : ∀ (vs rest : List Nat),
    readByteArray (vs ++ rest) 0 vs.length = some (vs.map Int.ofNat) := by
  intro vs
  induction vs with
  | nil => intro rest; rfl
  | cons v vs ih =>
    intro rest
    rw [List.length_cons, readByteArray_succ]
    rw [show getU8 ((v :: vs) ++ rest) 0 = some v from rfl]
    have h2 : readByteArray ((v :: vs) ++ rest) (0 + 1) vs.length
        = readByteArray (vs ++ rest) 0 vs.length :=
      readByteArray_cons_shift v (vs ++ rest) vs.length 0
    rw [h2, ih rest]
    rfl

/-- Big-endian 16-bit encodings decode back through `getU16`. -/
theorem getU16_u16be (v : Nat) (rest : List Nat) (hv : v < 65536) :
    getU16 (u16beBytes v ++ rest) 0 = some v := by
  rw [show getU16 (u16beBytes v ++ rest) 0 = some (v / 256 % 256 * 256 + v % 256) from rfl]
  congr 1
  omega

/-- Word elements decode to their values. -/
theorem readWordArray_enc : ∀ (vs rest : List Nat), (∀ x ∈ vs, x < 65536) →
    readWordArray ((vs.map u16beBytes).flatten ++ rest) 0 vs.length
      = some (vs.map Int.ofNat) := by
  intro vs
  induction vs with
  | nil => intro rest _; rfl
  | cons v vs ih =>
    intro rest hv
    have hvhead := hv v (List.mem_cons_self v vs)
    simp only [List.map_cons, List.flatten_cons, List.append_assoc, List.length_cons]
    rw [readWordArray_succ, getU16_u16be v _ hvhead]
    have h2 : readWordArray (u16beBytes v ++ ((vs.map u16beBytes).flatten ++ rest))
          (0 + 2) vs.length
        = readWordArray ((vs.map u16beBytes).flatten ++ rest) 0 vs.length := by
      have s1 : readWordArray (u16beBytes v ++ ((vs.map u16beBytes).flatten ++ rest))
            (0 + 2) vs.length
          = readWordArray ((v % 256) :: ((vs.map u16beBytes).flatten ++ rest)) 1 vs.length :=
        readWordArray_cons_shift _ _ vs.length 1
      have s2 : readWordArray ((v % 256) :: ((vs.map u16beBytes).flatten ++ rest)) 1 vs.length
          = readWordArray ((vs.map u16beBytes).flatten ++ rest) 0 vs.length :=
        readWordArray_cons_shift _ _ vs.length 0
      rw [s1, s2]
    rw [h2, ih rest (fun x hx => hv x (List.mem_cons_of_mem v hx))]
    rfl

/-- The stored-as-unsigned representation converts back to the signed
value (the round-trip of the §4.1 sign rule). -/
theorem toSignedShort_emod (v : Int) (h1 : -32768 ≤ v) (h2 : v < 32768) :
    toSignedShort (v % 65536).toNat = v := by
  unfold toSignedShort
  split <;> omega

/-- 32-bit version of the sign-conversion round trip. -/
theorem toSignedLong_emod (v : Int) (h1 : -2147483648 ≤ v) (h2 : v < 2147483648) :
    toSignedLong (v % 4294967296).toNat = v := by
  unfold toSignedLong
  split <;> omega

/-- Short elements decode back to their signed values. -/
theorem readShortArray_enc : ∀ (vs : List Int) (rest : List Nat),
    (∀ x ∈ vs, -32768 ≤ x ∧ x < 32768) →
    readShortArray ((vs.map (fun v => u16beBytes (v % 65536).toNat)).flatten ++ rest)
      0 vs.length = some vs := by
  intro vs
  induction vs with
  | nil => intro rest _; rfl
  | cons v vs ih =>
    intro rest hv
    have hvhead := hv v (List.mem_cons_self v vs)
    simp only [List.map_cons, List.flatten_cons, List.append_assoc, List.length_cons]
    rw [readShortArray_succ,
      getU16_u16be ((v % 65536).toNat) _ (by omega)]
    have h2 : readShortArray
          (u16beBytes (v % 65536).toNat ++ ((vs.map (fun v => u16beBytes (v % 65536).toNat)).flatten ++ rest))
          (0 + 2) vs.length
        = readShortArray ((vs.map (fun v => u16beBytes (v % 65536).toNat)).flatten ++ rest)
          0 vs.length := by
      have s1 : readShortArray
            (u16beBytes (v % 65536).toNat ++ ((vs.map (fun v => u16beBytes (v % 65536).toNat)).flatten ++ rest))
            (0 + 2) vs.length
          = readShortArray ((v % 65536).toNat % 256 :: ((vs.map (fun v => u16beBytes (v % 65536).toNat)).flatten ++ rest))
            1 vs.length :=
        readShortArray_cons_shift _ _ vs.length 1
      have s2 : readShortArray ((v % 65536).toNat % 256 :: ((vs.map (fun v => u16beBytes (v % 65536).toNat)).flatten ++ rest))
            1 vs.length
          = readShortArray ((vs.map (fun v => u16beBytes (v % 65536).toNat)).flatten ++ rest)
            0 vs.length :=
        readShortArray_cons_shift _ _ vs.length 0
      rw [s1, s2]
    rw [h2, ih rest (fun x hx => hv x (List.mem_cons_of_mem v hx))]
    simp only [Option.bind_eq_bind, Option.some_bind]
    rw [toSignedShort_emod v hvhead.1 hvhead.2]
    rfl

/-- Big-endian 32-bit encodings decode back through `getU32`. -/
theorem getU32_u32be (v : Nat) (rest : List Nat) (hv : v < 4294967296) :
    getU32 (u32beBytes v ++ rest) 0 = some v := by
  rw [show getU32 (u32beBytes v ++ rest) 0
    = some ((v / 16777216 % 256 * 256 + v / 65536 % 256) * 65536
        + (v / 256 % 256 * 256 + v % 256)) from rfl]
  congr 1
  omega

/-- Long elements decode back to their signed values. -/
theorem readLongArray_enc : ∀ (vs : List Int) (rest : List Nat),
    (∀ x ∈ vs, -2147483648 ≤ x ∧ x < 2147483648) →
    readLongArray ((vs.map (fun v => u32beBytes (v % 4294967296).toNat)).flatten ++ rest)
      0 vs.length = some vs := by
  intro vs
  induction vs with
  | nil => intro rest _; rfl
  | cons v vs ih =>
    intro rest hv
    have hvhead := hv v (List.mem_cons_self v vs)
    simp only [List.map_cons, List.flatten_cons, List.append_assoc, List.length_cons]
    rw [readLongArray_succ,
      getU32_u32be ((v % 4294967296).toNat) _ (by omega)]
    have h2 : readLongArray
          (u32beBytes (v % 4294967296).toNat ++ ((vs.map (fun v => u32beBytes (v % 4294967296).toNat)).flatten ++ rest))
          (0 + 4) vs.length
        = readLongArray ((vs.map (fun v => u32beBytes (v % 4294967296).toNat)).flatten ++ rest)
          0 vs.length := by
      set n : Nat := (v % 4294967296).toNat with hn
      set Y : List Nat := (vs.map (fun v => u32beBytes (v % 4294967296).toNat)).flatten ++ rest with hY
      have s1 : readLongArray (u32beBytes n ++ Y) (0 + 4) vs.length
          = readLongArray (n / 65536 % 256 :: n / 256 % 256 :: n % 256 :: Y) 3 vs.length :=
        readLongArray_cons_shift _ _ vs.length 3
      have s2 : readLongArray (n / 65536 % 256 :: n / 256 % 256 :: n % 256 :: Y) 3 vs.length
          = readLongArray (n / 256 % 256 :: n % 256 :: Y) 2 vs.length :=
        readLongArray_cons_shift _ _ vs.length 2
      have s3 : readLongArray (n / 256 % 256 :: n % 256 :: Y) 2 vs.length
          = readLongArray (n % 256 :: Y) 1 vs.length :=
        readLongArray_cons_shift _ _ vs.length 1
      have s4 : readLongArray (n % 256 :: Y) 1 vs.length
          = readLongArray Y 0 vs.length :=
        readLongArray_cons_shift _ _ vs.length 0
      rw [s1, s2, s3, s4]
    rw [h2, ih rest (fun x hx => hv x (List.mem_cons_of_mem v hx))]
    simp only [Option.bind_eq_bind, Option.some_bind]
    rw [toSignedLong_emod v hvhead.1 hvhead.2]
    rfl

/-- Float reads ignore a prepended byte when the offset is bumped. -/
theorem readFloatArray_cons_shift (x : Nat) (b : List Nat) :
    ∀ (n off : Nat), readFloatArray (x :: b) (off + 1) n = readFloatArray b off n := by
  intro n
  induction n with
  | zero => intro off; rfl
  | succ k ih =>
    intro off
    unfold readFloatArray
    rw [show getU32 (x :: b) (off + 1) = getU32 b off from rfl]
    have h2 : readFloatArray (x :: b) (off + 1 + 4) k = readFloatArray b (off + 4) k := by
      have := ih (off + 4)
      rw [show off + 1 + 4 = off + 4 + 1 from by omega]
      exact this
    rw [h2]

/-- Double reads ignore a prepended byte when the offset is bumped. -/
theorem readDoubleArray_cons_shift (x : Nat) (b : List Nat) :
    ∀ (n off : Nat), readDoubleArray (x :: b) (off + 1) n = readDoubleArray b off n := by
  intro n
  induction n with
  | zero => intro off; rfl
  | succ k ih =>
    intro off
    unfold readDoubleArray
    rw [show getU32 (x :: b) (off + 1) = getU32 b off from rfl]
    rw [show getU32 (x :: b) (off + 1 + 4) = getU32 b (off + 4) from rfl]
    have h2 : readDoubleArray (x :: b) (off + 1 + 8) k = readDoubleArray b (off + 8) k := by
      have := ih (off + 8)
      rw [show off + 1 + 8 = off + 8 + 1 from by omega]
      exact this
    rw [h2]

/-- One unrolling of `readFloatArray`. -/
theorem readFloatArray_succ (b : List Nat) (off k : Nat) :
    readFloatArray b off (k + 1) = (do
      let bits ← getU32 b off
      let rest ← readFloatArray b (off + 4) k
      pure ((bits : Int) :: rest)) := rfl

/-- One unrolling of `readDoubleArray`. -/
theorem readDoubleArray_succ (b : List Nat) (off k : Nat) :
    readDoubleArray b off (k + 1) = (do
      let hi ← getU32 b off
      let lo ← getU32 b (off + 4)
      let rest ← readDoubleArray b (off + 8) k
      pure ((hi * 4294967296 + lo : Nat) :: rest)) := rfl

/-- Float reads ignore a whole prepended block when the offset is bumped
by its length. -/
theorem readFloatArray_append_shift (pre b : List Nat) :
    ∀ (n off : Nat), readFloatArray (pre ++ b) (off + pre.length) n
      = readFloatArray b off n := by
  induction pre with
  | nil => intro n off; rw [List.nil_append, List.length_nil, Nat.add_zero]
  | cons x pre ih =>
    intro n off
    rw [List.cons_append, List.length_cons,
      show off + (pre.length + 1) = off + pre.length + 1 from by omega,
      readFloatArray_cons_shift, ih]

/-- Double reads ignore a whole prepended block when the offset is bumped
by its length. -/
theorem readDoubleArray_append_shift (pre b : List Nat) :
    ∀ (n off : Nat), readDoubleArray (pre ++ b) (off + pre.length) n
      = readDoubleArray b off n := by
  induction pre with
  | nil => intro n off; rw [List.nil_append, List.length_nil, Nat.add_zero]
  | cons x pre ih =>
    intro n off
    rw [List.cons_append, List.length_cons,
      show off + (pre.length + 1) = off + pre.length + 1 from by omega,
      readDoubleArray_cons_shift, ih]

/-- Float elements decode back to their 32-bit patterns. -/
theorem readFloatArray_enc : ∀ (vs rest : List Nat), (∀ x ∈ vs, x < 4294967296) →
    readFloatArray ((vs.map u32beBytes).flatten ++ rest) 0 vs.length
      = some (vs.map Int.ofNat) := by
  intro vs
  induction vs with
  | nil => intro rest _; rfl
  | cons v vs ih =>
    intro rest hv
    have hvhead := hv v (List.mem_cons_self v vs)
    simp only [List.map_cons, List.flatten_cons, List.append_assoc, List.length_cons]
    rw [readFloatArray_succ, getU32_u32be v _ hvhead]
    have h2 : readFloatArray (u32beBytes v ++ ((vs.map u32beBytes).flatten ++ rest))
          (0 + 4) vs.length
        = readFloatArray ((vs.map u32beBytes).flatten ++ rest) 0 vs.length := by
      have h4 := readFloatArray_append_shift (u32beBytes v)
        ((vs.map u32beBytes).flatten ++ rest) vs.length 0
      rw [show (u32beBytes v).length = 4 from rfl] at h4
      exact h4
    rw [h2, ih rest (fun x hx => hv x (List.mem_cons_of_mem v hx))]
    rfl

/-- Double elements decode back to their 64-bit patterns. -/
theorem readDoubleArray_enc : ∀ (vs rest : List Nat),
    (∀ x ∈ vs, x < 18446744073709551616) →
    readDoubleArray
      ((vs.map (fun v => u32beBytes (v / 4294967296) ++ u32beBytes (v % 4294967296))).flatten
        ++ rest) 0 vs.length
      = some (vs.map Int.ofNat) := by
  intro vs
  induction vs with
  | nil => intro rest _; rfl
  | cons v vs ih =>
    intro rest hv
    have hvhead := hv v (List.mem_cons_self v vs)
    simp only [List.map_cons, List.flatten_cons, List.append_assoc, List.length_cons]
    rw [readDoubleArray_succ]
    rw [getU32_u32be (v / 4294967296) _ (by omega)]
    rw [show getU32 (u32beBytes (v / 4294967296) ++ (u32beBytes (v % 4294967296) ++
        ((vs.map (fun v => u32beBytes (v / 4294967296) ++ u32beBytes (v % 4294967296))).flatten
          ++ rest))) (0 + 4)
      = getU32 (u32beBytes (v % 4294967296) ++
        ((vs.map (fun v => u32beBytes (v / 4294967296) ++ u32beBytes (v % 4294967296))).flatten
          ++ rest)) 0 from rfl]
    rw [getU32_u32be (v % 4294967296) _ (by omega)]
    have h2 : readDoubleArray (u32beBytes (v / 4294967296) ++ (u32beBytes (v % 4294967296) ++
          ((vs.map (fun v => u32beBytes (v / 4294967296) ++ u32beBytes (v % 4294967296))).flatten
            ++ rest))) (0 + 8) vs.length
        = readDoubleArray
          ((vs.map (fun v => u32beBytes (v / 4294967296) ++ u32beBytes (v % 4294967296))).flatten
            ++ rest) 0 vs.length := by
      rw [← List.append_assoc]
      have h8 := readDoubleArray_append_shift
        (u32beBytes (v / 4294967296) ++ u32beBytes (v % 4294967296))
        ((vs.map (fun v => u32beBytes (v / 4294967296) ++ u32beBytes (v % 4294967296))).flatten
          ++ rest) vs.length 0
      rw [show (u32beBytes (v / 4294967296) ++ u32beBytes (v % 4294967296)).length = 8 from by
        simp [u32beBytes]] at h8
      exact h8
    rw [h2, ih rest (fun x hx => hv x (List.mem_cons_of_mem v hx))]
    simp only [Option.bind_eq_bind, Option.some_bind]
    rw [show v / 4294967296 * 4294967296 + v % 4294967296 = v from by omega]
    rfl

/-- One unrolling of `readCString`. -/
theorem readCString_succ (b : List Nat) (off k : Nat) :
    readCString b off (k + 1) = (do
      let c ← getU8 b off
      if c = 0 then pure []
      else do
        let rest ← readCString b (off + 1) k
        pure (c :: rest)) := rfl

/-- A NUL-free string followed by its terminator decodes to itself. -/
theorem readCString_enc : ∀ (cs rest : List Nat), (∀ c ∈ cs, c ≠ 0) →
    readCString ((cs ++ [0]) ++ rest) 0 (cs.length + 1) = some cs := by
  intro cs
  induction cs with
  | nil => intro rest _; rfl
  | cons c cs ih =>
    intro rest hc
    have hch := hc c (List.mem_cons_self c cs)
    rw [show ((c :: cs) ++ [0]) ++ rest = c :: ((cs ++ [0]) ++ rest) from rfl,
      List.length_cons, readCString_succ]
    rw [show getU8 (c :: ((cs ++ [0]) ++ rest)) 0 = some c from rfl]
    simp only [Option.bind_eq_bind, Option.some_bind]
    rw [if_neg hch]
    have h2 : readCString (c :: ((cs ++ [0]) ++ rest)) (0 + 1) (cs.length + 1)
        = readCString ((cs ++ [0]) ++ rest) 0 (cs.length + 1) :=
      readCString_cons_shift c ((cs ++ [0]) ++ rest) (cs.length + 1) 0
    rw [h2, ih rest (fun x hx => hc x (List.mem_cons_of_mem c hx))]
    rfl

/-- Re-serializing the 4-byte inline pack recovers the padded data
exactly (the §4.1 inline data-location rule round-trips). -/
theorem u32beBytes_bytesToNatBE (d : List Nat) (hd : d.length = 4)
    (hb : ∀ x ∈ d, x < 256) :
    u32beBytes (bytesToNatBE d % 4294967296) = d := by
  match d, hd with
  | [a, b, c, e], _ =>
    have ha := hb a (by simp)
    have hbb := hb b (by simp)
    have hcc := hb c (by simp)
    have hee := hb e (by simp)
    have hfold : bytesToNatBE [a, b, c, e] = ((a * 256 + b) * 256 + c) * 256 + e := by
      unfold bytesToNatBE
      simp [List.foldl]
    rw [u32beBytes, hfold]
    have hm : (((a * 256 + b) * 256 + c) * 256 + e) % 4294967296
        = ((a * 256 + b) * 256 + c) * 256 + e := by omega
    rw [hm]
    simp only [List.cons.injEq, and_true]
    refine ⟨?_, ?_, ?_, ?_⟩ <;> omega

/-- Collapsing on the element count agrees with collapsing on the result
length (the readers return exactly `count` elements). -/
theorem scalarize_collapse (l : List Int) (count : Nat) (h : l.length = count) :
    (if count = 1 then TagData.scalar (l.getD 0 0) else TagData.array l)
      = scalarizeVals l := by
  unfold scalarizeVals
  rw [h]

/-- Round trip for byte elements. -/
theorem roundTrip_bytes (vs : List Nat) (hv : ∀ x ∈ vs, x < 256) :
    extractData (encodeEntry (EncValue.bytes vs)).2 (encodeEntry (EncValue.bytes vs)).1
      = some (expectedTag (EncValue.bytes vs)) := by
  by_cases hds : (encBytes (EncValue.bytes vs)).length ≤ 4
  · have hb : ∀ x ∈ encBytes (EncValue.bytes vs) ++
        List.replicate (4 - (encBytes (EncValue.bytes vs)).length) 0, x < 256 := by
      intro x hx
      rcases List.mem_append.mp hx with hx2 | hx2
      · exact hv x hx2
      · rw [List.eq_of_mem_replicate hx2]; omega
    have hlen4 : (encBytes (EncValue.bytes vs) ++
        List.replicate (4 - (encBytes (EncValue.bytes vs)).length) 0).length = 4 := by
      simp
      omega
    have hdv := u32beBytes_bytesToNatBE _ hlen4 hb
    unfold encodeEntry
    rw [if_pos hds]
    unfold extractData
    dsimp only
    rw [if_pos hds, if_pos hds]
    rw [hdv]
    show (do
      let result ← readByteArray
        (encBytes (EncValue.bytes vs) ++
          List.replicate (4 - (encBytes (EncValue.bytes vs)).length) 0) 0
        (encCount (EncValue.bytes vs))
      pure (if encCount (EncValue.bytes vs) = 1 then TagData.scalar (result.getD 0 0)
            else TagData.array result) : Option TagData)
      = some (expectedTag (EncValue.bytes vs))
    rw [show encCount (EncValue.bytes vs) = vs.length from rfl,
      show encBytes (EncValue.bytes vs) = vs from rfl]
    rw [readByteArray_enc vs _]
    simp only [Option.bind_eq_bind, Option.some_bind]
    rw [scalarize_collapse (vs.map Int.ofNat) vs.length (by simp)]
    rfl
  · unfold encodeEntry
    rw [if_neg hds]
    unfold extractData
    dsimp only
    rw [if_neg hds, if_neg hds]
    show (do
      let result ← readByteArray (encBytes (EncValue.bytes vs)) 0 (encCount (EncValue.bytes vs))
      pure (if encCount (EncValue.bytes vs) = 1 then TagData.scalar (result.getD 0 0)
            else TagData.array result) : Option TagData)
      = some (expectedTag (EncValue.bytes vs))
    rw [show encCount (EncValue.bytes vs) = vs.length from rfl,
      show encBytes (EncValue.bytes vs) = vs from rfl]
    have hr : readByteArray vs 0 vs.length = some (vs.map Int.ofNat) := by
      have h := readByteArray_enc vs []
      rwa [List.append_nil] at h
    rw [hr]
    simp only [Option.bind_eq_bind, Option.some_bind]
    rw [scalarize_collapse (vs.map Int.ofNat) vs.length (by simp)]
    rfl

/-- Round trip for char elements (read identically to bytes). -/
theorem roundTrip_chars (vs : List Nat) (hv : ∀ x ∈ vs, x < 256) :
    extractData (encodeEntry (EncValue.chars vs)).2 (encodeEntry (EncValue.chars vs)).1
      = some (expectedTag (EncValue.chars vs)) := by
  by_cases hds : (encBytes (EncValue.chars vs)).length ≤ 4
  · have hb : ∀ x ∈ encBytes (EncValue.chars vs) ++
        List.replicate (4 - (encBytes (EncValue.chars vs)).length) 0, x < 256 := by
      intro x hx
      rcases List.mem_append.mp hx with hx2 | hx2
      · exact hv x hx2
      · rw [List.eq_of_mem_replicate hx2]; omega
    have hlen4 : (encBytes (EncValue.chars vs) ++
        List.replicate (4 - (encBytes (EncValue.chars vs)).length) 0).length = 4 := by
      simp
      omega
    have hdv := u32beBytes_bytesToNatBE _ hlen4 hb
    unfold encodeEntry
    rw [if_pos hds]
    unfold extractData
    dsimp only
    rw [if_pos hds, if_pos hds]
    rw [hdv]
    show (do
      let result ← readByteArray
        (encBytes (EncValue.chars vs) ++
          List.replicate (4 - (encBytes (EncValue.chars vs)).length) 0) 0
        (encCount (EncValue.chars vs))
      pure (if encCount (EncValue.chars vs) = 1 then TagData.scalar (result.getD 0 0)
            else TagData.array result) : Option TagData)
      = some (expectedTag (EncValue.chars vs))
    rw [show encCount (EncValue.chars vs) = vs.length from rfl,
      show encBytes (EncValue.chars vs) = vs from rfl]
    rw [readByteArray_enc vs _]
    simp only [Option.bind_eq_bind, Option.some_bind]
    rw [scalarize_collapse (vs.map Int.ofNat) vs.length (by simp)]
    rfl
  · unfold encodeEntry
    rw [if_neg hds]
    unfold extractData
    dsimp only
    rw [if_neg hds, if_neg hds]
    show (do
      let result ← readByteArray (encBytes (EncValue.chars vs)) 0 (encCount (EncValue.chars vs))
      pure (if encCount (EncValue.chars vs) = 1 then TagData.scalar (result.getD 0 0)
            else TagData.array result) : Option TagData)
      = some (expectedTag (EncValue.chars vs))
    rw [show encCount (EncValue.chars vs) = vs.length from rfl,
      show encBytes (EncValue.chars vs) = vs from rfl]
    have hr : readByteArray vs 0 vs.length = some (vs.map Int.ofNat) := by
      have h := readByteArray_enc vs []
      rwa [List.append_nil] at h
    rw [hr]
    simp only [Option.bind_eq_bind, Option.some_bind]
    rw [scalarize_collapse (vs.map Int.ofNat) vs.length (by simp)]
    rfl

/-- Round trip for word elements. -/
theorem roundTrip_words (vs : List Nat) (hv : ∀ x ∈ vs, x < 65536) :
    extractData (encodeEntry (EncValue.words vs)).2 (encodeEntry (EncValue.words vs)).1
      = some (expectedTag (EncValue.words vs)) := by
  by_cases hds : (encBytes (EncValue.words vs)).length ≤ 4
  · have hb : ∀ x ∈ encBytes (EncValue.words vs) ++
        List.replicate (4 - (encBytes (EncValue.words vs)).length) 0, x < 256 := by
      intro x hx
      rcases List.mem_append.mp hx with hx2 | hx2
      · unfold encBytes at hx2
        obtain ⟨piece, hp, hxp⟩ := List.mem_flatten.mp hx2
        obtain ⟨w, hw, rfl⟩ := List.mem_map.mp hp
        unfold u16beBytes at hxp
        simp only [List.mem_cons, List.not_mem_nil, or_false] at hxp
        rcases hxp with rfl | rfl <;> omega
      · rw [List.eq_of_mem_replicate hx2]; omega
    have hlen4 : (encBytes (EncValue.words vs) ++
        List.replicate (4 - (encBytes (EncValue.words vs)).length) 0).length = 4 := by
      simp
      omega
    have hdv := u32beBytes_bytesToNatBE _ hlen4 hb
    unfold encodeEntry
    rw [if_pos hds]
    unfold extractData
    dsimp only
    rw [if_pos hds, if_pos hds]
    rw [hdv]
    show (do
      let result ← readWordArray
        (encBytes (EncValue.words vs) ++
          List.replicate (4 - (encBytes (EncValue.words vs)).length) 0) 0
        (encCount (EncValue.words vs))
      pure (if encCount (EncValue.words vs) = 1 then TagData.scalar (result.getD 0 0)
            else TagData.array result) : Option TagData)
      = some (expectedTag (EncValue.words vs))
    rw [show encCount (EncValue.words vs) = vs.length from rfl,
      show encBytes (EncValue.words vs) = (vs.map u16beBytes).flatten from rfl]
    rw [readWordArray_enc vs _ hv]
    simp only [Option.bind_eq_bind, Option.some_bind]
    rw [scalarize_collapse (vs.map Int.ofNat) vs.length (by simp)]
    rfl
  · unfold encodeEntry
    rw [if_neg hds]
    unfold extractData
    dsimp only
    rw [if_neg hds, if_neg hds]
    show (do
      let result ← readWordArray (encBytes (EncValue.words vs)) 0 (encCount (EncValue.words vs))
      pure (if encCount (EncValue.words vs) = 1 then TagData.scalar (result.getD 0 0)
            else TagData.array result) : Option TagData)
      = some (expectedTag (EncValue.words vs))
    rw [show encCount (EncValue.words vs) = vs.length from rfl,
      show encBytes (EncValue.words vs) = (vs.map u16beBytes).flatten from rfl,
      show (vs.map u16beBytes).flatten = (vs.map u16beBytes).flatten ++ [] from by simp]
    rw [readWordArray_enc vs [] hv]
    simp only [Option.bind_eq_bind, Option.some_bind]
    rw [scalarize_collapse (vs.map Int.ofNat) vs.length (by simp)]
    rfl

/-- Round trip for signed short elements. -/
theorem roundTrip_shorts (vs : List Int) (hv : ∀ x ∈ vs, -32768 ≤ x ∧ x < 32768) :
    extractData (encodeEntry (EncValue.shorts vs)).2 (encodeEntry (EncValue.shorts vs)).1
      = some (expectedTag (EncValue.shorts vs)) := by
  by_cases hds : (encBytes (EncValue.shorts vs)).length ≤ 4
  · have hb : ∀ x ∈ encBytes (EncValue.shorts vs) ++
        List.replicate (4 - (encBytes (EncValue.shorts vs)).length) 0, x < 256 := by
      intro x hx
      rcases List.mem_append.mp hx with hx2 | hx2
      · unfold encBytes at hx2
        obtain ⟨piece, hp, hxp⟩ := List.mem_flatten.mp hx2
        obtain ⟨w, hw, rfl⟩ := List.mem_map.mp hp
        unfold u16beBytes at hxp
        simp only [List.mem_cons, List.not_mem_nil, or_false] at hxp
        rcases hxp with rfl | rfl <;> omega
      · rw [List.eq_of_mem_replicate hx2]; omega
    have hlen4 : (encBytes (EncValue.shorts vs) ++
        List.replicate (4 - (encBytes (EncValue.shorts vs)).length) 0).length = 4 := by
      simp
      omega
    have hdv := u32beBytes_bytesToNatBE _ hlen4 hb
    unfold encodeEntry
    rw [if_pos hds]
    unfold extractData
    dsimp only
    rw [if_pos hds, if_pos hds]
    rw [hdv]
    show (do
      let result ← readShortArray
        (encBytes (EncValue.shorts vs) ++
          List.replicate (4 - (encBytes (EncValue.shorts vs)).length) 0) 0
        (encCount (EncValue.shorts vs))
      pure (if encCount (EncValue.shorts vs) = 1 then TagData.scalar (result.getD 0 0)
            else TagData.array result) : Option TagData)
      = some (expectedTag (EncValue.shorts vs))
    rw [show encCount (EncValue.shorts vs) = vs.length from rfl,
      show encBytes (EncValue.shorts vs)
        = (vs.map (fun v => u16beBytes (v % 65536).toNat)).flatten from rfl]
    rw [readShortArray_enc vs _ hv]
    simp only [Option.bind_eq_bind, Option.some_bind]
    rw [scalarize_collapse vs vs.length rfl]
    rfl
  · unfold encodeEntry
    rw [if_neg hds]
    unfold extractData
    dsimp only
    rw [if_neg hds, if_neg hds]
    show (do
      let result ← readShortArray (encBytes (EncValue.shorts vs)) 0 (encCount (EncValue.shorts vs))
      pure (if encCount (EncValue.shorts vs) = 1 then TagData.scalar (result.getD 0 0)
            else TagData.array result) : Option TagData)
      = some (expectedTag (EncValue.shorts vs))
    rw [show encCount (EncValue.shorts vs) = vs.length from rfl,
      show encBytes (EncValue.shorts vs)
        = (vs.map (fun v => u16beBytes (v % 65536).toNat)).flatten from rfl,
      show (vs.map (fun v => u16beBytes (v % 65536).toNat)).flatten
        = (vs.map (fun v => u16beBytes (v % 65536).toNat)).flatten ++ [] from by simp]
    rw [readShortArray_enc vs [] hv]
    simp only [Option.bind_eq_bind, Option.some_bind]
    rw [scalarize_collapse vs vs.length rfl]
    rfl

/-- Round trip for signed long elements. -/
theorem roundTrip_longs (vs : List Int) (hv : ∀ x ∈ vs, -2147483648 ≤ x ∧ x < 2147483648) :
    extractData (encodeEntry (EncValue.longs vs)).2 (encodeEntry (EncValue.longs vs)).1
      = some (expectedTag (EncValue.longs vs)) := by
  by_cases hds : (encBytes (EncValue.longs vs)).length ≤ 4
  · have hb : ∀ x ∈ encBytes (EncValue.longs vs) ++
        List.replicate (4 - (encBytes (EncValue.longs vs)).length) 0, x < 256 := by
      intro x hx
      rcases List.mem_append.mp hx with hx2 | hx2
      · unfold encBytes at hx2
        obtain ⟨piece, hp, hxp⟩ := List.mem_flatten.mp hx2
        obtain ⟨w, hw, rfl⟩ := List.mem_map.mp hp
        unfold u32beBytes at hxp
        simp only [List.mem_cons, List.not_mem_nil, or_false] at hxp
        rcases hxp with rfl | rfl | rfl | rfl <;> omega
      · rw [List.eq_of_mem_replicate hx2]; omega
    have hlen4 : (encBytes (EncValue.longs vs) ++
        List.replicate (4 - (encBytes (EncValue.longs vs)).length) 0).length = 4 := by
      simp
      omega
    have hdv := u32beBytes_bytesToNatBE _ hlen4 hb
    unfold encodeEntry
    rw [if_pos hds]
    unfold extractData
    dsimp only
    rw [if_pos hds, if_pos hds]
    rw [hdv]
    show (do
      let result ← readLongArray
        (encBytes (EncValue.longs vs) ++
          List.replicate (4 - (encBytes (EncValue.longs vs)).length) 0) 0
        (encCount (EncValue.longs vs))
      pure (if encCount (EncValue.longs vs) = 1 then TagData.scalar (result.getD 0 0)
            else TagData.array result) : Option TagData)
      = some (expectedTag (EncValue.longs vs))
    rw [show encCount (EncValue.longs vs) = vs.length from rfl,
      show encBytes (EncValue.longs vs)
        = (vs.map (fun v => u32beBytes (v % 4294967296).toNat)).flatten from rfl]
    rw [readLongArray_enc vs _ hv]
    simp only [Option.bind_eq_bind, Option.some_bind]
    rw [scalarize_collapse vs vs.length rfl]
    rfl
  · unfold encodeEntry
    rw [if_neg hds]
    unfold extractData
    dsimp only
    rw [if_neg hds, if_neg hds]
    show (do
      let result ← readLongArray (encBytes (EncValue.longs vs)) 0 (encCount (EncValue.longs vs))
      pure (if encCount (EncValue.longs vs) = 1 then TagData.scalar (result.getD 0 0)
            else TagData.array result) : Option TagData)
      = some (expectedTag (EncValue.longs vs))
    rw [show encCount (EncValue.longs vs) = vs.length from rfl,
      show encBytes (EncValue.longs vs)
        = (vs.map (fun v => u32beBytes (v % 4294967296).toNat)).flatten from rfl,
      show (vs.map (fun v => u32beBytes (v % 4294967296).toNat)).flatten
        = (vs.map (fun v => u32beBytes (v % 4294967296).toNat)).flatten ++ [] from by simp]
    rw [readLongArray_enc vs [] hv]
    simp only [Option.bind_eq_bind, Option.some_bind]
    rw [scalarize_collapse vs vs.length rfl]
    rfl

/-- Round trip for float elements (raw 32-bit patterns). -/
theorem roundTrip_floats (vs : List Nat) (hv : ∀ x ∈ vs, x < 4294967296) :
    extractData (encodeEntry (EncValue.floats vs)).2 (encodeEntry (EncValue.floats vs)).1
      = some (expectedTag (EncValue.floats vs)) := by
  by_cases hds : (encBytes (EncValue.floats vs)).length ≤ 4
  · have hb : ∀ x ∈ encBytes (EncValue.floats vs) ++
        List.replicate (4 - (encBytes (EncValue.floats vs)).length) 0, x < 256 := by
      intro x hx
      rcases List.mem_append.mp hx with hx2 | hx2
      · unfold encBytes at hx2
        obtain ⟨piece, hp, hxp⟩ := List.mem_flatten.mp hx2
        obtain ⟨w, hw, rfl⟩ := List.mem_map.mp hp
        unfold u32beBytes at hxp
        simp only [List.mem_cons, List.not_mem_nil, or_false] at hxp
        rcases hxp with rfl | rfl | rfl | rfl <;> omega
      · rw [List.eq_of_mem_replicate hx2]; omega
    have hlen4 : (encBytes (EncValue.floats vs) ++
        List.replicate (4 - (encBytes (EncValue.floats vs)).length) 0).length = 4 := by
      simp
      omega
    have hdv := u32beBytes_bytesToNatBE _ hlen4 hb
    unfold encodeEntry
    rw [if_pos hds]
    unfold extractData
    dsimp only
    rw [if_pos hds, if_pos hds]
    rw [hdv]
    show (do
      let result ← readFloatArray
        (encBytes (EncValue.floats vs) ++
          List.replicate (4 - (encBytes (EncValue.floats vs)).length) 0) 0
        (encCount (EncValue.floats vs))
      pure (if encCount (EncValue.floats vs) = 1 then TagData.scalar (result.getD 0 0)
            else TagData.array result) : Option TagData)
      = some (expectedTag (EncValue.floats vs))
    rw [show encCount (EncValue.floats vs) = vs.length from rfl,
      show encBytes (EncValue.floats vs) = (vs.map u32beBytes).flatten from rfl]
    rw [readFloatArray_enc vs _ hv]
    simp only [Option.bind_eq_bind, Option.some_bind]
    rw [scalarize_collapse (vs.map Int.ofNat) vs.length (by simp)]
    rfl
  · unfold encodeEntry
    rw [if_neg hds]
    unfold extractData
    dsimp only
    rw [if_neg hds, if_neg hds]
    show (do
      let result ← readFloatArray (encBytes (EncValue.floats vs)) 0
        (encCount (EncValue.floats vs))
      pure (if encCount (EncValue.floats vs) = 1 then TagData.scalar (result.getD 0 0)
            else TagData.array result) : Option TagData)
      = some (expectedTag (EncValue.floats vs))
    rw [show encCount (EncValue.floats vs) = vs.length from rfl,
      show encBytes (EncValue.floats vs) = (vs.map u32beBytes).flatten from rfl,
      show (vs.map u32beBytes).flatten = (vs.map u32beBytes).flatten ++ [] from by simp]
    rw [readFloatArray_enc vs [] hv]
    simp only [Option.bind_eq_bind, Option.some_bind]
    rw [scalarize_collapse (vs.map Int.ofNat) vs.length (by simp)]
    rfl

/-- Round trip for double elements (raw 64-bit patterns). -/
theorem roundTrip_doubles (vs : List Nat) (hv : ∀ x ∈ vs, x < 18446744073709551616) :
    extractData (encodeEntry (EncValue.doubles vs)).2 (encodeEntry (EncValue.doubles vs)).1
      = some (expectedTag (EncValue.doubles vs)) := by
  by_cases hds : (encBytes (EncValue.doubles vs)).length ≤ 4
  · have hb : ∀ x ∈ encBytes (EncValue.doubles vs) ++
        List.replicate (4 - (encBytes (EncValue.doubles vs)).length) 0, x < 256 := by
      intro x hx
      rcases List.mem_append.mp hx with hx2 | hx2
      · unfold encBytes at hx2
        obtain ⟨piece, hp, hxp⟩ := List.mem_flatten.mp hx2
        obtain ⟨w, hw, rfl⟩ := List.mem_map.mp hp
        rcases List.mem_append.mp hxp with hx3 | hx3
        · unfold u32beBytes at hx3
          simp only [List.mem_cons, List.not_mem_nil, or_false] at hx3
          rcases hx3 with rfl | rfl | rfl | rfl <;> omega
        · unfold u32beBytes at hx3
          simp only [List.mem_cons, List.not_mem_nil, or_false] at hx3
          rcases hx3 with rfl | rfl | rfl | rfl <;> omega
      · rw [List.eq_of_mem_replicate hx2]; omega
    have hlen4 : (encBytes (EncValue.doubles vs) ++
        List.replicate (4 - (encBytes (EncValue.doubles vs)).length) 0).length = 4 := by
      simp
      omega
    have hdv := u32beBytes_bytesToNatBE _ hlen4 hb
    unfold encodeEntry
    rw [if_pos hds]
    unfold extractData
    dsimp only
    rw [if_pos hds, if_pos hds]
    rw [hdv]
    show (do
      let result ← readDoubleArray
        (encBytes (EncValue.doubles vs) ++
          List.replicate (4 - (encBytes (EncValue.doubles vs)).length) 0) 0
        (encCount (EncValue.doubles vs))
      pure (if encCount (EncValue.doubles vs) = 1 then TagData.scalar (result.getD 0 0)
            else TagData.array result) : Option TagData)
      = some (expectedTag (EncValue.doubles vs))
    rw [show encCount (EncValue.doubles vs) = vs.length from rfl,
      show encBytes (EncValue.doubles vs)
        = (vs.map (fun v => u32beBytes (v / 4294967296)
            ++ u32beBytes (v % 4294967296))).flatten from rfl]
    rw [readDoubleArray_enc vs _ hv]
    simp only [Option.bind_eq_bind, Option.some_bind]
    rw [scalarize_collapse (vs.map Int.ofNat) vs.length (by simp)]
    rfl
  · unfold encodeEntry
    rw [if_neg hds]
    unfold extractData
    dsimp only
    rw [if_neg hds, if_neg hds]
    show (do
      let result ← readDoubleArray (encBytes (EncValue.doubles vs)) 0
        (encCount (EncValue.doubles vs))
      pure (if encCount (EncValue.doubles vs) = 1 then TagData.scalar (result.getD 0 0)
            else TagData.array result) : Option TagData)
      = some (expectedTag (EncValue.doubles vs))
    rw [show encCount (EncValue.doubles vs) = vs.length from rfl,
      show encBytes (EncValue.doubles vs)
        = (vs.map (fun v => u32beBytes (v / 4294967296)
            ++ u32beBytes (v % 4294967296))).flatten from rfl,
      show (vs.map (fun v => u32beBytes (v / 4294967296)
            ++ u32beBytes (v % 4294967296))).flatten
        = (vs.map (fun v => u32beBytes (v / 4294967296)
            ++ u32beBytes (v % 4294967296))).flatten ++ [] from by simp]
    rw [readDoubleArray_enc vs [] hv]
    simp only [Option.bind_eq_bind, Option.some_bind]
    rw [scalarize_collapse (vs.map Int.ofNat) vs.length (by simp)]
    rfl

/-- Round trip for a date value (4 bytes, always inline). -/
theorem roundTrip_date (y mo d : Nat) (hy : y < 65536) (hmo : mo < 256) (hd : d < 256) :
    extractData (encodeEntry (EncValue.date y mo d)).2 (encodeEntry (EncValue.date y mo d)).1
      = some (expectedTag (EncValue.date y mo d)) := by
  have hds : (encBytes (EncValue.date y mo d)).length ≤ 4 := by
    simp [encBytes, u16beBytes]
  have hb : ∀ x ∈ encBytes (EncValue.date y mo d) ++
      List.replicate (4 - (encBytes (EncValue.date y mo d)).length) 0, x < 256 := by
    intro x hx
    rcases List.mem_append.mp hx with hx2 | hx2
    · rw [show encBytes (EncValue.date y mo d)
        = [y / 256 % 256, y % 256, mo, d] from rfl] at hx2
      simp only [List.mem_cons, List.not_mem_nil, or_false] at hx2
      rcases hx2 with rfl | rfl | rfl | rfl <;> omega
    · rw [List.eq_of_mem_replicate hx2]; omega
  have hlen4 : (encBytes (EncValue.date y mo d) ++
      List.replicate (4 - (encBytes (EncValue.date y mo d)).length) 0).length = 4 := by
    simp [encBytes, u16beBytes]
  have hdv := u32beBytes_bytesToNatBE _ hlen4 hb
  unfold encodeEntry
  rw [if_pos hds]
  unfold extractData
  dsimp only
  rw [if_pos hds, if_pos hds, hdv]
  rw [show readDate (encBytes (EncValue.date y mo d) ++
      List.replicate (4 - (encBytes (EncValue.date y mo d)).length) 0) 0
    = some (y / 256 % 256 * 256 + y % 256, mo, d) from rfl]
  show some (TagData.date (y / 256 % 256 * 256 + y % 256) mo d)
    = some (TagData.date y mo d)
  rw [show y / 256 % 256 * 256 + y % 256 = y from by omega]

/-- Round trip for a time value (four raw bytes, always inline). -/
theorem roundTrip_time (h mi s hs : Nat) (hh : h < 256) (hmi : mi < 256)
    (hsv : s < 256) (hhs : hs < 256) :
    extractData (encodeEntry (EncValue.time h mi s hs)).2
      (encodeEntry (EncValue.time h mi s hs)).1
      = some (expectedTag (EncValue.time h mi s hs)) := by
  have hds : (encBytes (EncValue.time h mi s hs)).length ≤ 4 := by
    simp [encBytes]
  have hb : ∀ x ∈ encBytes (EncValue.time h mi s hs) ++
      List.replicate (4 - (encBytes (EncValue.time h mi s hs)).length) 0, x < 256 := by
    intro x hx
    rcases List.mem_append.mp hx with hx2 | hx2
    · rw [show encBytes (EncValue.time h mi s hs) = [h, mi, s, hs] from rfl] at hx2
      simp only [List.mem_cons, List.not_mem_nil, or_false] at hx2
      rcases hx2 with rfl | rfl | rfl | rfl <;> omega
    · rw [List.eq_of_mem_replicate hx2]; omega
  have hlen4 : (encBytes (EncValue.time h mi s hs) ++
      List.replicate (4 - (encBytes (EncValue.time h mi s hs)).length) 0).length = 4 := by
    simp [encBytes]
  have hdv := u32beBytes_bytesToNatBE _ hlen4 hb
  unfold encodeEntry
  rw [if_pos hds]
  unfold extractData
  dsimp only
  rw [if_pos hds, if_pos hds, hdv]
  rfl

/-- A length-prefixed pascal string decodes back to its characters when
given its own size as the limit. -/
theorem readPString_enc (cs rest : List Nat) :
    readPString ((cs.length :: cs) ++ rest) 0 (cs.length + 1) = some cs := by
  unfold readPString
  rw [if_neg (by omega)]
  rw [show getU8 ((cs.length :: cs) ++ rest) 0 = some cs.length from rfl]
  simp only [Option.bind_eq_bind, Option.some_bind]
  rw [show cs.length + 1 - 1 = cs.length from by omega, Nat.min_self]
  have h2 : readBytesN ((cs.length :: cs) ++ rest) (0 + 1) cs.length
      = readBytesN (cs ++ rest) 0 cs.length :=
    readBytesN_cons_shift cs.length (cs ++ rest) cs.length 0
  rw [h2, readBytesN_prefix cs rest]

/-- Round trip for a pascal string. -/
theorem roundTrip_pstr (cs : List Nat) (hlen : cs.length < 256)
    (hv : ∀ c ∈ cs, c < 256) :
    extractData (encodeEntry (EncValue.pstr cs)).2 (encodeEntry (EncValue.pstr cs)).1
      = some (expectedTag (EncValue.pstr cs)) := by
  by_cases hds : (encBytes (EncValue.pstr cs)).length ≤ 4
  · have hb : ∀ x ∈ encBytes (EncValue.pstr cs) ++
        List.replicate (4 - (encBytes (EncValue.pstr cs)).length) 0, x < 256 := by
      intro x hx
      rcases List.mem_append.mp hx with hx2 | hx2
      · rw [show encBytes (EncValue.pstr cs) = cs.length :: cs from rfl] at hx2
        rcases List.mem_cons.mp hx2 with rfl | hx3
        · omega
        · exact hv x hx3
      · rw [List.eq_of_mem_replicate hx2]; omega
    have hlen4 : (encBytes (EncValue.pstr cs) ++
        List.replicate (4 - (encBytes (EncValue.pstr cs)).length) 0).length = 4 := by
      simp only [List.length_append, List.length_replicate]
      omega
    have hdv := u32beBytes_bytesToNatBE _ hlen4 hb
    unfold encodeEntry
    rw [if_pos hds]
    unfold extractData
    dsimp only
    rw [if_pos hds, if_pos hds, hdv]
    have hr : readPString (encBytes (EncValue.pstr cs) ++
        List.replicate (4 - (encBytes (EncValue.pstr cs)).length) 0) 0
        ((encBytes (EncValue.pstr cs)).length) = some cs :=
      readPString_enc cs (List.replicate (4 - (encBytes (EncValue.pstr cs)).length) 0)
    rw [hr]
    rfl
  · unfold encodeEntry
    rw [if_neg hds]
    unfold extractData
    dsimp only
    rw [if_neg hds, if_neg hds]
    have hr : readPString (encBytes (EncValue.pstr cs)) 0
        ((encBytes (EncValue.pstr cs)).length) = some cs := by
      have h := readPString_enc cs []
      rwa [List.append_nil] at h
    rw [hr]
    rfl

/-- Round trip for a c-string. -/
theorem roundTrip_cstr (cs : List Nat) (hv : ∀ c ∈ cs, 0 < c ∧ c < 256) :
    extractData (encodeEntry (EncValue.cstr cs)).2 (encodeEntry (EncValue.cstr cs)).1
      = some (expectedTag (EncValue.cstr cs)) := by
  have hnz : ∀ c ∈ cs, c ≠ 0 := fun c hc => by have := (hv c hc).1; omega
  have hsize : (encBytes (EncValue.cstr cs)).length = cs.length + 1 := by
    simp [encBytes]
  by_cases hds : (encBytes (EncValue.cstr cs)).length ≤ 4
  · have hb : ∀ x ∈ encBytes (EncValue.cstr cs) ++
        List.replicate (4 - (encBytes (EncValue.cstr cs)).length) 0, x < 256 := by
      intro x hx
      rcases List.mem_append.mp hx with hx2 | hx2
      · rw [show encBytes (EncValue.cstr cs) = cs ++ [0] from rfl] at hx2
        rcases List.mem_append.mp hx2 with hx3 | hx3
        · exact (hv x hx3).2
        · rw [List.mem_singleton.mp hx3]; omega
      · rw [List.eq_of_mem_replicate hx2]; omega
    have hlen4 : (encBytes (EncValue.cstr cs) ++
        List.replicate (4 - (encBytes (EncValue.cstr cs)).length) 0).length = 4 := by
      simp only [List.length_append, List.length_replicate]
      omega
    have hdv := u32beBytes_bytesToNatBE _ hlen4 hb
    unfold encodeEntry
    rw [if_pos hds]
    unfold extractData
    dsimp only
    rw [if_pos hds, if_pos hds, hdv]
    show Option.map TagData.cstr
        (readCString (encBytes (EncValue.cstr cs) ++
          List.replicate (4 - (encBytes (EncValue.cstr cs)).length) 0) 0
          ((encBytes (EncValue.cstr cs)).length))
      = some (expectedTag (EncValue.cstr cs))
    have hr : readCString (encBytes (EncValue.cstr cs) ++
        List.replicate (4 - (encBytes (EncValue.cstr cs)).length) 0) 0
        ((encBytes (EncValue.cstr cs)).length) = some cs := by
      rw [hsize]
      exact readCString_enc cs (List.replicate (4 - (cs.length + 1)) 0) hnz
    rw [hr]
    rfl
  · unfold encodeEntry
    rw [if_neg hds]
    unfold extractData
    dsimp only
    rw [if_neg hds, if_neg hds]
    show Option.map TagData.cstr
        (readCString (encBytes (EncValue.cstr cs)) 0 ((encBytes (EncValue.cstr cs)).length))
      = some (expectedTag (EncValue.cstr cs))
    have hr : readCString (encBytes (EncValue.cstr cs)) 0
        ((encBytes (EncValue.cstr cs)).length) = some cs := by
      rw [hsize]
      have h := readCString_enc cs [] hnz
      rwa [List.append_nil] at h
    rw [hr]
    rfl

/-- C6: decoding a synthetic directory entry reproduces the encoded
element values exactly for every supported exact-valued element type
(byte, char, word, short, long, date, time, pascal string, c-string; a
one-element numeric entry comes back as the bare scalar per
`_extractTypedArray`), covering both the inline (`datasize ≤ 4`) and
offset data locations; and the signed 16/32-bit conversions subtract
`2^16` (resp. `2^32`) exactly when the unsigned raw value is at least
half the range, and return it unchanged otherwise.  A float (resp.
double) element is its raw 32-bit (resp. 64-bit) big-endian IEEE-754 bit
pattern — the exact representation the decoder delivers — and the round
trip reproduces those patterns exactly. -/
theorem C6_roundtrip :
    (∀ v : EncValue, encValid v →
      extractData (encodeEntry v).2 (encodeEntry v).1 = some (expectedTag v)) ∧
    (∀ u : Nat, u < 65536 →
      toSignedShort u = if 32768 ≤ u then (u : Int) - 65536 else (u : Int)) ∧
    (∀ u : Nat, u < 4294967296 →
      toSignedLong u = if 2147483648 ≤ u then (u : Int) - 4294967296 else (u : Int)) := by
  refine ⟨?_, fun u _ => rfl, fun u _ => rfl⟩
  intro v hv
  match v, hv with
  | .bytes vs, hv => exact roundTrip_bytes vs hv
  | .chars vs, hv => exact roundTrip_chars vs hv
  | .words vs, hv => exact roundTrip_words vs hv
  | .shorts vs, hv => exact roundTrip_shorts vs hv
  | .longs vs, hv => exact roundTrip_longs vs hv
  | .floats vs, hv => exact roundTrip_floats vs hv
  | .doubles vs, hv => exact roundTrip_doubles vs hv
  | .date y mo d, hv => exact roundTrip_date y mo d hv.1 hv.2.1 hv.2.2
  | .time h mi s hs, hv => exact roundTrip_time h mi s hs hv.1 hv.2.1 hv.2.2.1 hv.2.2.2
  | .pstr cs, hv => exact roundTrip_pstr cs hv.1 hv.2
  | .cstr cs, hv => exact roundTrip_cstr cs hv

/-- C6 witness: a 3-element signed-short entry (6 bytes, offset-located)
decodes back to `[-5, 300, 32767]`, and the raw unsigned 65531 converts
to `-5`. -/
theorem C6_roundtrip_witness :
    extractData (encodeEntry (EncValue.shorts [-5, 300, 32767])).2
      (encodeEntry (EncValue.shorts [-5, 300, 32767])).1
      = some (TagData.array [-5, 300, 32767]) ∧
    toSignedShort 65531 = -5 := by
  constructor
  · have hvld : encValid (EncValue.shorts [-5, 300, 32767]) := by
      intro x hx
      simp only [List.mem_cons, List.not_mem_nil, or_false] at hx
      rcases hx with rfl | rfl | rfl <;> exact ⟨by decide, by decide⟩
    have h := C6_roundtrip.1 (EncValue.shorts [-5, 300, 32767]) hvld
    rw [show expectedTag (EncValue.shorts [-5, 300, 32767])
      = TagData.array [-5, 300, 32767] from rfl] at h
    exact h
  · have h2 := C6_roundtrip.2.1 65531 (by decide)
    rw [h2]
    decide

/-- A one-entry directory for the C10 witness: a 3-element signed-short
tag `DATA_9` stored at offset 0. -/
def c10Dir : List DirEntry :=
  [⟨[68, 65, 84, 65], 9, 4, 2, 3, 6, 0, 0⟩]

/-- The 6-byte buffer behind `c10Dir`: shorts 5, -5 (raw 65531), 256. -/
def c10Buf : List Nat :=
  [0, 5, 255, 251, 1, 0]

/-- C10 witness: the concrete 3-element short entry decodes to an array
of 3 values (not a scalar). -/
theorem C10_getTagData_scalar_array_witness :
    ∃ a, TagData.array [5, -5, 256] = TagData.array a ∧
      a.length = (⟨[68, 65, 84, 65], 9, 4, 2, 3, 6, 0, 0⟩ : DirEntry).numelements := by
  exact (C10_getTagData_scalar_array c10Buf c10Dir [68, 65, 84, 65] 9
    ⟨[68, 65, 84, 65], 9, 4, 2, 3, 6, 0, 0⟩ (TagData.array [5, -5, 256])
    (by decide) (by decide) (by decide)).2 (by decide)

/-! ## C4: characterizing the quality-trim scan

Spec-side definitions (following the claim's wording) and a re-expression
of the loop's second phase used only inside the proofs. -/

/-- Spec-side: position `i`'s centered window average reaches the upper
threshold ("good"). -/
def isGood (qs : List ℚ) (upper : ℚ) (i : Nat) : Bool :=
  decide (upper ≤ centeredWindowAverage qs i)

/-- Spec-side: position `i`'s centered window average falls below the
lower threshold ("fall-off"). -/
def isBad (qs : List ℚ) (lower : ℚ) (i : Nat) : Bool :=
  decide (centeredWindowAverage qs i < lower)

/-- Spec-side: the good positions of the scan range, in scan order. -/
def specGoodList (qs : List ℚ) (upper : ℚ) : List Nat :=
  (scanRange qs.length).filter (isGood qs upper)

/-- Spec-side: the first position at or after the first good position
`g0` whose average falls below the lower threshold, if any. -/
def specFallOff (qs : List ℚ) (lower : ℚ) (g0 : Nat) : Option Nat :=
  ((scanRange qs.length).filter (fun i => decide (g0 ≤ i) && isBad qs lower i)).head?

/-- Spec-side: the claim's `trimEnd` — the most recent good position at
the moment of the first fall-off after `trimStart` is set, or the last
good position when the scan completes without fall-off. -/
def specTrimEnd (qs : List ℚ) (upper lower : ℚ) (g0 : Nat) : Int :=
  match specFallOff qs lower g0 with
  | some f =>
    match ((specGoodList qs upper).filter (fun i => decide (i ≤ f))).getLast? with
    | some j => (j : Int)
    | none => 0
  | none =>
    match (specGoodList qs upper).getLast? with
    | some j => (j : Int)
    | none => 0

/-- Proof helper: the scan loop once `trimStart` is set, with the
tracking of `trimStart`'s `-1` sentinel already resolved. -/
def scanTail (qs : List ℚ) (upper lower : ℚ) (t lg te : Int) : List Nat → ScanState
  | [] => ⟨t, lg, te, false⟩
  | i :: rest =>
    let lg2 := if upper ≤ centeredWindowAverage qs i then (i : Int) else lg
    if centeredWindowAverage qs i < lower then ⟨t, lg2, lg2, true⟩
    else scanTail qs upper lower t lg2 te rest

/-- Proof helper: the running "most recent good position". -/
def specLastGood (qs : List ℚ) (upper : ℚ) (idxs : List Nat) (lg : Int) : Int :=
  idxs.foldl (fun acc i => if upper ≤ centeredWindowAverage qs i then (i : Int) else acc) lg

/-- Once `trimStart` is set (not `-1`), the loop is `scanTail`. -/
theorem scanLoop_eq_scanTail (qs : List ℚ) (upper lower : ℚ) :
    ∀ (idxs : List Nat) (t lg te : Int), t ≠ -1 →
      scanLoop qs upper lower idxs ⟨t, lg, te, false⟩ = scanTail qs upper lower t lg te idxs := by
  intro idxs
  induction idxs with
  | nil => intro t lg te ht; rfl
  | cons i rest ih =>
    intro t lg te ht
    unfold scanLoop scanTail
    dsimp only
    by_cases hg : upper ≤ centeredWindowAverage qs i
    · rw [if_pos hg, if_pos hg, if_neg ht]
      by_cases hb : centeredWindowAverage qs i < lower
      · rw [if_pos ⟨ht, hb⟩, if_pos hb]
      · rw [if_neg (fun hc => hb hc.2), if_neg hb]
        exact ih t (i : Int) te ht
    · rw [if_neg hg, if_neg hg]
      by_cases hb : centeredWindowAverage qs i < lower
      · rw [if_pos ⟨ht, hb⟩, if_pos hb]
      · rw [if_neg (fun hc => hb hc.2), if_neg hb]
        exact ih t lg te ht

/-- The first element surviving a filter is the first element past the
failing prefix. -/
theorem head?_filter_eq {α : Type} (p : α → Bool) :
    ∀ l : List α, (l.filter p).head? = (l.dropWhile (fun a => !p a)).head? := by
  intro l
  induction l with
  | nil => rfl
  | cons a t ih =>
    by_cases hp : p a
    · simp [List.filter_cons, List.dropWhile_cons, hp]
    · simp only [List.filter_cons, List.dropWhile_cons]
      rw [if_neg (by simp [hp]), if_pos (by simp [hp])]
      exact ih

/-- The head of `dropWhile p` falsifies `p`. -/
theorem dropWhile_head_false {α : Type} (p : α → Bool) :
    ∀ (l t : List α) (a : α), l.dropWhile p = a :: t → p a = false := by
  intro l
  induction l with
  | nil => intro t a h; cases h
  | cons b t2 ih =>
    intro t a h
    rw [List.dropWhile_cons] at h
    by_cases hb : p b
    · rw [if_pos hb] at h
      exact ih t a h
    · rw [if_neg hb] at h
      cases h
      exact Bool.eq_false_iff.mpr hb

/-- One unrolling of `scanLoop`. -/
theorem scanLoop_cons (qs : List ℚ) (upper lower : ℚ) (i : Nat) (rest : List Nat)
    (st : ScanState) :
    scanLoop qs upper lower (i :: rest) st =
      (let windowAvg := centeredWindowAverage qs i
       let st1 :=
         if upper ≤ windowAvg then
           { st with
             trimStart := if st.trimStart = -1 then (i : Int) else st.trimStart,
             lastGoodPosition := (i : Int) }
         else st
       if st1.trimStart ≠ -1 ∧ windowAvg < lower then
         { st1 with trimEnd := st1.lastGoodPosition, foundFallOff := true }
       else scanLoop qs upper lower rest st1) := rfl

/-- Before any good position and with `trimStart` unset, each loop step
is a no-op. -/
theorem scanLoop_skip (qs : List ℚ) (upper lower : ℚ) :
    ∀ (pre rest : List Nat) (st : ScanState), st.trimStart = -1 →
      (∀ i ∈ pre, isGood qs upper i = false) →
      scanLoop qs upper lower (pre ++ rest) st = scanLoop qs upper lower rest st := by
  intro pre
  induction pre with
  | nil => intro rest st _ _; rfl
  | cons p pre2 ih =>
    intro rest st hst hpre
    have hp : ¬ upper ≤ centeredWindowAverage qs p := by
      have := hpre p (List.mem_cons_self p pre2)
      simpa [isGood] using this
    show scanLoop qs upper lower (p :: (pre2 ++ rest)) st = _
    rw [scanLoop_cons]
    dsimp only
    rw [if_neg hp, if_neg (fun hc => hc.1 hst)]
    exact ih rest st hst (fun i hi => hpre i (List.mem_cons_of_mem p hi))

/-- The fold tracking the last good position equals the last element of
the filtered good list (or the seed when there is none). -/
theorem specLastGood_eq (qs : List ℚ) (upper : ℚ) :
    ∀ (idxs : List Nat) (lg : Int),
      specLastGood qs upper idxs lg =
        match ((idxs.filter (isGood qs upper)).getLast?) with
        | some j => (j : Int)
        | none => lg := by
  intro idxs
  induction idxs with
  | nil => intro lg; rfl
  | cons i rest ih =>
    intro lg
    by_cases hg : isGood qs upper i
    · have hg2 : upper ≤ centeredWindowAverage qs i := by simpa [isGood] using hg
      rw [show specLastGood qs upper (i :: rest) lg
          = specLastGood qs upper rest (if upper ≤ centeredWindowAverage qs i then (i : Int) else lg)
          from rfl, if_pos hg2]
      rw [List.filter_cons, if_pos (by simpa using hg), List.getLast?_cons, ih]
      cases hlast : (rest.filter (isGood qs upper)).getLast? with
      | none => simp [hlast]
      | some j => simp [hlast]
    · have hg2 : ¬ upper ≤ centeredWindowAverage qs i := by simpa [isGood] using hg
      rw [show specLastGood qs upper (i :: rest) lg
          = specLastGood qs upper rest (if upper ≤ centeredWindowAverage qs i then (i : Int) else lg)
          from rfl, if_neg hg2]
      rw [List.filter_cons, if_neg (by simpa using hg)]
      exact ih lg

/-- `scanTail` over a fall-off-free suffix: no break, last good tracked. -/
theorem scanTail_noBad (qs : List ℚ) (upper lower : ℚ) :
    ∀ (idxs : List Nat) (t lg te : Int), (∀ i ∈ idxs, isBad qs lower i = false) →
      scanTail qs upper lower t lg te idxs
        = ⟨t, specLastGood qs upper idxs lg, te, false⟩ := by
  intro idxs
  induction idxs with
  | nil => intro t lg te _; rfl
  | cons i rest ih =>
    intro t lg te hnb
    have hb : ¬ centeredWindowAverage qs i < lower := by
      have := hnb i (List.mem_cons_self i rest)
      simpa [isBad] using this
    unfold scanTail
    dsimp only
    rw [if_neg hb]
    exact ih t _ te (fun j hj => hnb j (List.mem_cons_of_mem i hj))

/-- `scanTail` up to and including the first fall-off position: the loop
breaks there with `trimEnd` set to the last good position seen. -/
theorem scanTail_split (qs : List ℚ) (upper lower : ℚ) :
    ∀ (pre : List Nat) (f : Nat) (post : List Nat) (t lg te : Int),
      (∀ i ∈ pre, isBad qs lower i = false) → isBad qs lower f = true →
      scanTail qs upper lower t lg te (pre ++ f :: post)
        = ⟨t, specLastGood qs upper (pre ++ [f]) lg,
            specLastGood qs upper (pre ++ [f]) lg, true⟩ := by
  intro pre
  induction pre with
  | nil =>
    intro f post t lg te _ hf
    have hb : centeredWindowAverage qs f < lower := by simpa [isBad] using hf
    show scanTail qs upper lower t lg te (f :: post) = _
    unfold scanTail
    dsimp only
    rw [if_pos hb]
    rfl
  | cons p pre2 ih =>
    intro f post t lg te hpre hf
    have hb : ¬ centeredWindowAverage qs p < lower := by
      have := hpre p (List.mem_cons_self p pre2)
      simpa [isBad] using this
    show scanTail qs upper lower t lg te (p :: (pre2 ++ f :: post)) = _
    unfold scanTail
    dsimp only
    rw [if_neg hb]
    exact ih f post t _ te (fun i hi => hpre i (List.mem_cons_of_mem p hi)) hf

end AB1
namespace AB1

/-- Seeded with a genuine position, the running last-good tracker never
returns to the `-1` sentinel. -/
theorem specLastGood_nonneg (qs : List ℚ) (upper : ℚ) (idxs : List Nat) (g : Nat) :
    0 ≤ specLastGood qs upper idxs (g : Int) := by
  rw [specLastGood_eq]
  cases h : (idxs.filter (isGood qs upper)).getLast? with
  | none => simp
  | some j => simp

/-- C4: for every quality array of length ≥ 11 whose scan range
`[5, len-6]` contains a good position (centered window average ≥
`upperThreshold`), with `g0` the first such position,
`findTrimPoints` returns `trimStart = g0` and `trimEnd` equal to the
claimed value: the most recent good position as of the first fall-off
(average < `lowerThreshold`) at or after `g0`, or the last good
position when no fall-off occurs before the scan ends. -/
theorem C4_findTrimPoints_scan (qs : List ℚ) (upper lower : ℚ) (g0 : Nat)
    (hL : 11 ≤ qs.length)
    (hg0 : (specGoodList qs upper).head? = some g0) :
    findTrimPoints qs upper lower = ((g0 : Int), specTrimEnd qs upper lower g0) := by
  have hhead : ((scanRange qs.length).dropWhile (fun i => !isGood qs upper i)).head?
      = some g0 := by
    rw [← head?_filter_eq]
    exact hg0
  have hsplit : (scanRange qs.length).takeWhile (fun i => !isGood qs upper i) ++
      (scanRange qs.length).dropWhile (fun i => !isGood qs upper i) = scanRange qs.length :=
    List.takeWhile_append_dropWhile _ _
  cases hdw : (scanRange qs.length).dropWhile (fun i => !isGood qs upper i) with
  | nil => rw [hdw] at hhead; cases hhead
  | cons g0x post =>
  rw [hdw] at hhead hsplit
  have hg0e : g0 = g0x := by simpa using hhead.symm
  subst hg0e
  have hg0good : isGood qs upper g0 = true := by
    have := dropWhile_head_false _ _ _ _ hdw
    simpa using this
  have hg0avg : upper ≤ centeredWindowAverage qs g0 := by
    simpa [isGood] using hg0good
  have hpre : ∀ i ∈ (scanRange qs.length).takeWhile (fun i => !isGood qs upper i),
      isGood qs upper i = false := by
    intro i hi
    have := List.mem_takeWhile_imp hi
    simpa using this
  have hpw : List.Pairwise (· < ·) (scanRange qs.length) := by
    unfold scanRange
    exact List.pairwise_lt_range' _ _
  rw [← hsplit] at hpw
  obtain ⟨-, hpwtail, hcross⟩ := List.pairwise_append.mp hpw
  have hpost_gt : ∀ j ∈ post, g0 < j := (List.pairwise_cons.mp hpwtail).1
  have hpre_lt : ∀ i ∈ (scanRange qs.length).takeWhile (fun i => !isGood qs upper i),
      i < g0 := fun i hi => hcross i hi g0 (List.mem_cons_self g0 post)
  have hG : specGoodList qs upper = g0 :: post.filter (isGood qs upper) := by
    unfold specGoodList
    rw [← hsplit, List.filter_append, List.filter_eq_nil_iff.mpr (by
      intro a ha
      simp [hpre a ha]), List.filter_cons, if_pos hg0good]
    rfl
  unfold findTrimPoints
  rw [if_neg (by omega), if_neg (by omega)]
  rw [show scanLoop qs upper lower (scanRange qs.length) ⟨-1, -1, (qs.length : Int) - 6, false⟩
      = scanLoop qs upper lower (g0 :: post) ⟨-1, -1, (qs.length : Int) - 6, false⟩ from by
    conv_lhs => rw [← hsplit]
    exact scanLoop_skip qs upper lower _ _ ⟨-1, -1, (qs.length : Int) - 6, false⟩ rfl hpre]
  rw [scanLoop_cons]
  dsimp only
  rw [if_pos hg0avg, if_pos rfl]
  dsimp only
  by_cases hbg0 : centeredWindowAverage qs g0 < lower
  · -- fall-off at g0 itself
    rw [if_pos (show ((g0 : Int) ≠ -1) ∧ centeredWindowAverage qs g0 < lower from
      ⟨by omega, hbg0⟩)]
    dsimp only
    rw [if_neg (by omega), if_pos rfl]
    have hfall : specFallOff qs lower g0 = some g0 := by
      unfold specFallOff
      rw [← hsplit, List.filter_append, List.filter_eq_nil_iff.mpr (by
        intro a ha
        have h1 := hpre_lt a ha
        simp only [Bool.and_eq_true, decide_eq_true_eq, not_and]
        intro h2
        exact absurd h2 (by omega)), List.filter_cons, if_pos (by
        simp only [Bool.and_eq_true, decide_eq_true_eq, isBad]
        exact ⟨le_refl g0, hbg0⟩)]
      rfl
    have hnil : List.filter (fun i => decide (i ≤ g0)) (List.filter (isGood qs upper) post)
        = [] := List.filter_eq_nil_iff.mpr (by
      intro a ha
      have h1 := hpost_gt a (List.mem_of_mem_filter ha)
      simp only [decide_eq_true_eq]
      omega)
    have hte : specTrimEnd qs upper lower g0 = (g0 : Int) := by
      unfold specTrimEnd
      rw [hfall]
      simp [hG, hnil]
    rw [hte]
  · -- no fall-off at g0: continue scanning the tail
    rw [if_neg (show ¬(((g0 : Int) ≠ -1) ∧ centeredWindowAverage qs g0 < lower) from
      fun hc => hbg0 hc.2)]
    rw [scanLoop_eq_scanTail qs upper lower post _ _ _ (show (g0 : Int) ≠ -1 by omega)]
    have hbg0f : isBad qs lower g0 = false := by
      simp only [isBad, decide_eq_false_iff_not]
      exact hbg0
    have hsplitB : post.takeWhile (fun i => !isBad qs lower i) ++
        post.dropWhile (fun i => !isBad qs lower i) = post :=
      List.takeWhile_append_dropWhile _ _
    have hpreB : ∀ i ∈ post.takeWhile (fun i => !isBad qs lower i),
        isBad qs lower i = false := by
      intro i hi
      have := List.mem_takeWhile_imp hi
      simpa using this
    cases hdwB : post.dropWhile (fun i => !isBad qs lower i) with
    | nil =>
      -- no fall-off anywhere after g0
      rw [hdwB] at hsplitB
      rw [List.append_nil] at hsplitB
      rw [hsplitB] at hpreB
      rw [scanTail_noBad qs upper lower post _ _ _ hpreB]
      dsimp only
      rw [if_neg (by omega), if_neg (by simp)]
      have hlg : specLastGood qs upper post ((g0 : Int)) ≠ -1 := by
        have := specLastGood_nonneg qs upper post g0
        omega
      rw [if_pos hlg]
      have hfall : specFallOff qs lower g0 = none := by
        unfold specFallOff
        rw [← hsplit, List.filter_append, List.filter_eq_nil_iff.mpr (by
          intro a ha
          have h1 := hpre_lt a ha
          simp only [Bool.and_eq_true, decide_eq_true_eq, not_and]
          intro h2
          exact absurd h2 (by omega)), List.filter_cons, if_neg (by simp [hbg0f])]
        rw [List.filter_eq_nil_iff.mpr (by
          intro a ha
          simp [hpreB a ha])]
        rfl
      have hte : specTrimEnd qs upper lower g0 = specLastGood qs upper post ((g0 : Int)) := by
        unfold specTrimEnd
        rw [hfall, hG, List.getLast?_cons, specLastGood_eq]
        cases hlast : (post.filter (isGood qs upper)).getLast? with
        | none => simp
        | some j => simp
      rw [hte]
    | cons f postB =>
      rw [hdwB] at hsplitB
      have hfbad : isBad qs lower f = true := by
        have := dropWhile_head_false _ _ _ _ hdwB
        simpa using this
      have hpwpost : List.Pairwise (· < ·) post := (List.pairwise_cons.mp hpwtail).2
      rw [← hsplitB] at hpwpost
      obtain ⟨-, hpwB2, hcrossB⟩ := List.pairwise_append.mp hpwpost
      have hpostB_gt : ∀ j ∈ postB, f < j := (List.pairwise_cons.mp hpwB2).1
      have hpreB_lt : ∀ i ∈ post.takeWhile (fun i => !isBad qs lower i), i < f :=
        fun i hi => hcrossB i hi f (List.mem_cons_self f postB)
      have hg0f : g0 < f := by
        apply hpost_gt
        rw [← hsplitB]
        exact List.mem_append.mpr (Or.inr (List.mem_cons_self f postB))
      conv_lhs => rw [← hsplitB]
      rw [scanTail_split qs upper lower _ f postB _ _ _ hpreB hfbad]
      dsimp only
      rw [if_neg (by omega), if_pos rfl]
      have hfall : specFallOff qs lower g0 = some f := by
        unfold specFallOff
        rw [← hsplit, List.filter_append, List.filter_eq_nil_iff.mpr (by
          intro a ha
          have h1 := hpre_lt a ha
          simp only [Bool.and_eq_true, decide_eq_true_eq, not_and]
          intro h2
          exact absurd h2 (by omega)), List.filter_cons, if_neg (by simp [hbg0f])]
        conv_lhs => rw [← hsplitB]
        rw [List.filter_append, List.filter_eq_nil_iff.mpr (by
          intro a ha
          simp [hpreB a ha]), List.filter_cons, if_pos (by
          simp only [Bool.and_eq_true, decide_eq_true_eq, hfbad, and_true]
          omega)]
        rfl
      have h1 : post.filter (isGood qs upper)
          = (post.takeWhile (fun i => !isBad qs lower i)).filter (isGood qs upper)
            ++ (f :: postB).filter (isGood qs upper) := by
        conv_lhs => rw [← hsplitB]
        rw [List.filter_append]
      have hGf : (specGoodList qs upper).filter (fun i => decide (i ≤ f))
          = g0 :: ((post.takeWhile (fun i => !isBad qs lower i)) ++ [f]).filter
              (isGood qs upper) := by
        rw [hG, List.filter_cons, if_pos (by
          simp only [decide_eq_true_eq]
          omega)]
        rw [h1, List.filter_append, List.filter_append]
        have hA : List.filter (fun i => decide (i ≤ f))
            (List.filter (isGood qs upper) (post.takeWhile (fun i => !isBad qs lower i)))
            = List.filter (isGood qs upper) (post.takeWhile (fun i => !isBad qs lower i)) := by
          apply List.filter_eq_self.mpr
          intro a ha
          have h2 := hpreB_lt a (List.mem_of_mem_filter ha)
          simp only [decide_eq_true_eq]
          omega
        have hB : List.filter (fun i => decide (i ≤ f))
            (List.filter (isGood qs upper) (f :: postB))
            = List.filter (isGood qs upper) [f] := by
          rw [List.filter_cons]
          by_cases hgf : isGood qs upper f = true
          · rw [if_pos hgf]
            rw [List.filter_cons, if_pos (by simp)]
            rw [List.filter_eq_nil_iff.mpr (by
              intro a ha
              have h2 := hpostB_gt a (List.mem_of_mem_filter ha)
              simp only [decide_eq_true_eq]
              omega)]
            rw [show List.filter (isGood qs upper) [f] = [f] from by simp [hgf]]
          · rw [if_neg hgf]
            rw [List.filter_eq_nil_iff.mpr (by
              intro a ha
              have h2 := hpostB_gt a (List.mem_of_mem_filter ha)
              simp only [decide_eq_true_eq]
              omega)]
            rw [show List.filter (isGood qs upper) [f] = ([] : List Nat) from by simp [hgf]]
        rw [hA, hB]
      have hte : specTrimEnd qs upper lower g0
          = specLastGood qs upper
              ((post.takeWhile (fun i => !isBad qs lower i)) ++ [f]) ((g0 : Int)) := by
        unfold specTrimEnd
        rw [hfall]
        simp only [hGf, List.getLast?_cons, specLastGood_eq]
        cases hlast : (List.filter (isGood qs upper)
            ((post.takeWhile (fun i => !isBad qs lower i)) ++ [f])).getLast? with
        | none => simp
        | some j => simp
      rw [hte]

/-- C4 witness: eleven quality scores of 30 with thresholds 24/15 have
first good position 5, and `findTrimPoints` returns
`(5, specTrimEnd … 5)` by the theorem. -/
theorem C4_findTrimPoints_scan_witness :
    11 ≤ ([30, 30, 30, 30, 30, 30, 30, 30, 30, 30, 30] : List ℚ).length ∧
    (specGoodList [30, 30, 30, 30, 30, 30, 30, 30, 30, 30, 30] 24).head? = some 5 ∧
    findTrimPoints [30, 30, 30, 30, 30, 30, 30, 30, 30, 30, 30] 24 15
      = ((5 : Int), specTrimEnd [30, 30, 30, 30, 30, 30, 30, 30, 30, 30, 30] 24 15 5) := by
  have havg : centeredWindowAverage
      ([30, 30, 30, 30, 30, 30, 30, 30, 30, 30, 30] : List ℚ) 5 = 30 := by
    norm_num [centeredWindowAverage, List.getD]
  have hg0 : (specGoodList ([30, 30, 30, 30, 30, 30, 30, 30, 30, 30, 30] : List ℚ)
      24).head? = some 5 := by
    unfold specGoodList
    rw [show scanRange ([30, 30, 30, 30, 30, 30, 30, 30, 30, 30, 30] : List ℚ).length
      = [5] from rfl]
    rw [List.filter_cons, if_pos (by
      simp only [isGood, havg]
      decide)]
    rfl
  exact ⟨by decide, hg0, C4_findTrimPoints_scan _ 24 15 5 (by decide) hg0⟩

end AB1
